import Mathlib

/-!
PIN number generator (`pins.c`).

A shallow embedding of `src/pins.c` and a verification of its specification.

Conventions of the embedding.

* A C `int` is a 32-bit two's-complement integer.  It is modelled by a Lean `Int`;
  every arithmetic operation whose mathematical result can leave the range of `int`
  is followed by `wrap32`, which reduces the result modulo `2^32` into
  `[-2^31, 2^31 - 1]`.
* The C operator `%` truncates towards zero; it is modelled by `Int.tmod`.
* The clock is a stream of readings `Nat → Option Int`: reading number `k` is either
  `none` (`gettimeofday` failed) or `some tv_sec`.  The number of readings consumed
  so far is carried in the generator state.
* The `while(!valid)` loop of `main` need not terminate, so it is modelled with a
  fuel argument bounding the number of iterations of its body.
* The state file is a list of bytes; an `int` occupies four bytes, least significant
  byte first.
-/

namespace Pins

/-! ## Machine integers -/

/-- Reduction of a mathematical integer to the value of a 32-bit signed `int`. -/
def wrap32 (x : Int) : Int := (x + 2147483648) % 4294967296 - 2147483648

/-- The values a C `int` can hold. -/
def isInt32 (x : Int) : Prop := -2147483648 ≤ x ∧ x ≤ 2147483647

instance (x : Int) : Decidable (isInt32 x) := by unfold isInt32; infer_instance

/-! ## Constants of `pins.c` -/

/-- Source line 21: `const int prime = 6277;`. -/
def prime : Int := 6277

/-- Source line 25: `const char intSize = sizeof(int);`. -/
def intSize : Nat := 4

/-- Source line 27: `const int fileError = 1;`. -/
def fileError : Int := 1

/-- Source line 28: `const int timeError = 2;`. -/
def timeError : Int := 2

/-! ## Outcomes of a computation -/

/-- The ways a (fuelled) computation of the program can end: it completes with a
value, the process leaves through `exit(code)`, or the fuel of a loop runs out. -/
inductive Outcome (α : Type) where
  | done (a : α)
  | exit (code : Int)
  | outOfFuel
  deriving DecidableEq, Repr

/-! ## The pure functions -/

/-- Source lines 76-78: `return (salt + index * prime) % 10000;`. -/
def randomFor (salt index : Int) : Int :=
  Int.tmod (wrap32 (salt + wrap32 (index * prime))) 10000

/-- Source lines 81-83: `return (pin % 1111 > 0);`, the C truth value read as a `Bool`. -/
def validPin (pin : Int) : Bool := decide (Int.tmod pin 1111 > 0)

/-! ## The clock -/

/-- A clock: reading number `k` is `none` when `gettimeofday` fails and
`some tv_sec` otherwise. -/
abbrev Clock := Nat → Option Int

/-- Source lines 64-73: `makeSalt`, applied to the reading the clock gives.  The
`time_t` value `tv_sec` is converted to `int` by the `return`. -/
def makeSalt (reading : Option Int) : Outcome Int :=
  match reading with
  | none => Outcome.exit timeError
  | some tv_sec => Outcome.done (wrap32 tv_sec)

/-! ## The generator state and the generation loops of `main` -/

/-- The two `int`s of source line 100 together with the number of clock readings
consumed so far. -/
structure Gen where
  pIndex : Int
  salt : Int
  ticks : Nat
  deriving DecidableEq, Repr

/-- Source lines 114-119: the `if (pIndex == 9999) ... else pIndex++` at the head of the
body of the `while` loop. -/
def nextIndex (clock : Clock) (g : Gen) : Outcome Gen :=
  if g.pIndex = 9999 then
    match makeSalt (clock g.ticks) with
    | Outcome.done s => Outcome.done ⟨0, s, g.ticks + 1⟩
    | Outcome.exit c => Outcome.exit c
    | Outcome.outOfFuel => Outcome.outOfFuel
  else
    Outcome.done ⟨wrap32 (g.pIndex + 1), g.salt, g.ticks⟩

/-- Source lines 112-121: the loop `while(!valid) { ... }` that produces `pins[i]`.
`fuel` bounds the number of executions of the loop body.  The result is the state after
the loop and the value left in `pins[i]`. -/
def advance (clock : Clock) : Nat → Gen → Outcome (Gen × Int)
  | 0, _ => Outcome.outOfFuel
  | fuel + 1, g =>
    match nextIndex clock g with
    | Outcome.done g1 =>
      let pin := randomFor g1.salt g1.pIndex
      if validPin pin then Outcome.done (g1, pin) else advance clock fuel g1
    | Outcome.exit c => Outcome.exit c
    | Outcome.outOfFuel => Outcome.outOfFuel

/-- Source lines 111-122: the `for` loop with `n` iterations left; `pins` holds the
entries `pins[0..i-1]` already produced. -/
def generateLoop (clock : Clock) (fuel : Nat) : Nat → Gen → List Int → Outcome (Gen × List Int)
  | 0, g, pins => Outcome.done (g, pins)
  | n + 1, g, pins =>
    match advance clock fuel g with
    | Outcome.done (g1, pin) => generateLoop clock fuel n g1 (pins ++ [pin])
    | Outcome.exit c => Outcome.exit c
    | Outcome.outOfFuel => Outcome.outOfFuel

/-- Source lines 109-122: the generation of `count` PINs from the state `g`; every run
of the inner `while` loop gets `fuel` iterations. -/
def generate (clock : Clock) (fuel : Nat) (g : Gen) (count : Nat) : Outcome (Gen × List Int) :=
  generateLoop clock fuel count g []

/-! ## The state file -/

/-- The four bytes of an `int`, least significant first. -/
def encodeInt (x : Int) : List Nat :=
  let u := (x % 4294967296).toNat
  [u % 256, u / 256 % 256, u / 65536 % 256, u / 16777216 % 256]

/-- The `int` held by (the first four of) a list of bytes, least significant first. -/
def decodeInt (bs : List Nat) : Int :=
  wrap32 (Int.ofNat (bs.getD 0 0 + 256 * bs.getD 1 0 + 65536 * bs.getD 2 0
    + 16777216 * bs.getD 3 0))

/-- The file system as the program sees it: the content of `randomFile.bin` if the file
exists, and whether `open` on it succeeds. -/
structure Disk where
  file : Option (List Nat)
  canOpen : Bool
  deriving DecidableEq, Repr

/-- Source lines 31-34: `stat(fileName,&s) != -1`. -/
def fileExists (d : Disk) : Bool := d.file.isSome

/-- Source lines 37-44: `open(fileName, O_RDWR | O_CREAT, 0700)`; the result is the disk
after the call, on which the file exists. -/
def openRandomFile (d : Disk) : Outcome Disk :=
  if d.canOpen then Outcome.done ⟨some (d.file.getD []), d.canOpen⟩
  else Outcome.exit fileError

/-- The effect of `write(fd, buf, n)` at offset `off` on the content of a file. -/
def writeAt (off : Nat) (bytes content : List Nat) : List Nat :=
  content.take off ++ bytes ++ content.drop (off + bytes.length)

/-- The effect of `read(fd, p, intSize)` on the `int` at `p` holding `old`, when `avail`
is the content of the file from the current offset on: the bytes read replace the
first bytes of the variable. -/
def readInt (old : Int) (avail : List Nat) : Int :=
  decodeInt (avail.take intSize ++ (encodeInt old).drop (avail.take intSize).length)

/-- Source lines 47-52: `store`. -/
def store (index salt : Int) (d : Disk) : Outcome Disk :=
  match openRandomFile d with
  | Outcome.done d1 =>
    let c1 := writeAt 0 (encodeInt index) (d1.file.getD [])
    let c2 := writeAt intSize (encodeInt salt) c1
    Outcome.done ⟨some c2, d1.canOpen⟩
  | Outcome.exit c => Outcome.exit c
  | Outcome.outOfFuel => Outcome.outOfFuel

/-- Source lines 55-61: `load`; `index` and `salt` are the values the two variables hold
before the call. -/
def load (index salt : Int) (d : Disk) : Outcome (Disk × Int × Int) :=
  match openRandomFile d with
  | Outcome.done d1 =>
    let c := d1.file.getD []
    Outcome.done (d1, readInt index c, readInt salt (c.drop intSize))
  | Outcome.exit c => Outcome.exit c
  | Outcome.outOfFuel => Outcome.outOfFuel

/-! ## Output -/

/-- The characters `printf("%04d", pin)` writes. -/
def fmt04 (pin : Int) : List Char :=
  if 0 ≤ pin then List.leftpad 4 '0' (Nat.toDigits 10 pin.toNat)
  else '-' :: List.leftpad 3 '0' (Nat.toDigits 10 (-pin).toNat)

/-! ## The program -/

/-- What a run of the program leaves behind. -/
structure Run where
  /-- The file system after the run. -/
  disk : Disk
  /-- The number of clock readings consumed. -/
  ticks : Nat
  /-- The lines written to standard output. -/
  out : List (List Char)
  /-- The exit status, or `outOfFuel` for a run that does not end within the fuel. -/
  status : Outcome Int
  deriving DecidableEq, Repr

/-- Source lines 90-133: `main`.  `count` is the value of `atoi(argv[1])` (or `1`),
`index0` and `salt0` are the values the uninitialised variables `pIndex` and `salt`
hold at line 100, `ticks` is the number of clock readings consumed before the run. -/
def main (clock : Clock) (fuel : Nat) (count index0 salt0 : Int) (d : Disk) (ticks : Nat) :
    Run :=
  let loaded : Outcome (Disk × Int × Int) :=
    if fileExists d then load index0 salt0 d else Outcome.done (d, 9999, salt0)
  match loaded with
  | Outcome.done (d1, pIndex, salt) =>
    match generate clock fuel ⟨pIndex, salt, ticks⟩ count.toNat with
    | Outcome.done (g, pins) =>
      match store g.pIndex g.salt d1 with
      | Outcome.done d2 => ⟨d2, g.ticks, pins.map fmt04, Outcome.done 0⟩
      | Outcome.exit c => ⟨d1, g.ticks, [], Outcome.exit c⟩
      | Outcome.outOfFuel => ⟨d1, g.ticks, [], Outcome.outOfFuel⟩
    | Outcome.exit c => ⟨d1, ticks, [], Outcome.exit c⟩
    | Outcome.outOfFuel => ⟨d1, ticks, [], Outcome.outOfFuel⟩
  | Outcome.exit c => ⟨d, ticks, [], Outcome.exit c⟩
  | Outcome.outOfFuel => ⟨d, ticks, [], Outcome.outOfFuel⟩

/-! ## The specification's view of `generate` -/

/-- The specification's `generate(state, count)`: it calls `advance` `count` times in
sequence, threading the state through and collecting the emitted PINs in emission
order. -/
def generateSpec (clock : Clock) (fuel : Nat) : Gen → Nat → Outcome (Gen × List Int)
  | g, 0 => Outcome.done (g, [])
  | g, n + 1 =>
    match advance clock fuel g with
    | Outcome.done (g1, pin) =>
      match generateSpec clock fuel g1 n with
      | Outcome.done (g2, pins) => Outcome.done (g2, pin :: pins)
      | Outcome.exit c => Outcome.exit c
      | Outcome.outOfFuel => Outcome.outOfFuel
    | Outcome.exit c => Outcome.exit c
    | Outcome.outOfFuel => Outcome.outOfFuel

/-- The salts for which `salt + index * prime` stays inside `int` for every index of
an epoch: `2084719924 = 2^31 - 1 - 9999 * 6277`. -/
def goodSalt (s : Int) : Prop := 0 ≤ s ∧ s ≤ 2084719924

instance (s : Int) : Decidable (goodSalt s) := by unfold goodSalt; infer_instance

/-- The indices from `a` up to `9999` at which the candidate under `salt` passes
`validPin`, in increasing order. -/
def epochIndices (salt : Int) (a : Nat) : List Nat :=
  (List.range' a (10000 - a)).filter (fun (i : Nat) => validPin (randomFor salt (i : Int)))

/-- The values of `[0, 9999]` that are not multiples of 1111, in increasing order. -/
def validValues : List Nat := (List.range 10000).filter (fun (v : Nat) => decide (v % 1111 ≠ 0))

/-- Two runs of the generation loop with the state saved to the file after the first and
loaded from it before the second: `m` PINs from `g`, `store`, `load` (into variables
holding `index0` and `salt0`), then `n` PINs from the loaded state, the clock going on
from where the first run left it.  The result is the final state and all PINs in order. -/
def generateTwice (clock : Clock) (fuel : Nat) (g : Gen) (m n : Nat) (d : Disk)
    (index0 salt0 : Int) : Outcome (Gen × List Int) :=
  match generate clock fuel g m with
  | Outcome.done (g1, pins1) =>
    match store g1.pIndex g1.salt d with
    | Outcome.done d1 =>
      match load index0 salt0 d1 with
      | Outcome.done (_, pIndex, salt) =>
        match generate clock fuel ⟨pIndex, salt, g1.ticks⟩ n with
        | Outcome.done (g2, pins2) => Outcome.done (g2, pins1 ++ pins2)
        | Outcome.exit c => Outcome.exit c
        | Outcome.outOfFuel => Outcome.outOfFuel
      | Outcome.exit c => Outcome.exit c
      | Outcome.outOfFuel => Outcome.outOfFuel
    | Outcome.exit c => Outcome.exit c
    | Outcome.outOfFuel => Outcome.outOfFuel
  | Outcome.exit c => Outcome.exit c
  | Outcome.outOfFuel => Outcome.outOfFuel

/-- A clock all of whose readings succeed and give a good salt. -/
def goodClock (clock : Clock) : Prop := ∀ k, ∃ tv, clock k = some tv ∧ goodSalt tv

/-- A state whose index is in the ring and whose salt, unless the next step redraws it,
is a good salt. -/
def goodGen (g : Gen) : Prop :=
  0 ≤ g.pIndex ∧ g.pIndex ≤ 9999 ∧ (g.pIndex = 9999 ∨ goodSalt g.salt)

instance (g : Gen) : Decidable (goodGen g) := by unfold goodGen; infer_instance

/-! ## Arithmetic of `int` -/

theorem tmod_of_neg (a : Int) (n : Nat) (h : a < 0) :
    a.tmod (n : Int) = -((-a) % (n : Int)) := by
  obtain ⟨m, rfl⟩ := Int.eq_negSucc_of_lt_zero h
  rw [Int.neg_negSucc]
  rfl

theorem tmod_10000 (a : Int) :
    (0 ≤ a ∧ a.tmod 10000 = a % 10000) ∨ (a < 0 ∧ a.tmod 10000 = -((-a) % 10000)) := by
  rcases le_or_lt 0 a with h | h
  · exact Or.inl ⟨h, Int.tmod_eq_emod h (by norm_num)⟩
  · exact Or.inr ⟨h, tmod_of_neg a 10000 h⟩

theorem tmod_1111 (a : Int) :
    (0 ≤ a ∧ a.tmod 1111 = a % 1111) ∨ (a < 0 ∧ a.tmod 1111 = -((-a) % 1111)) := by
  rcases le_or_lt 0 a with h | h
  · exact Or.inl ⟨h, Int.tmod_eq_emod h (by norm_num)⟩
  · exact Or.inr ⟨h, tmod_of_neg a 1111 h⟩

theorem wrap32_of_isInt32 {x : Int} (h : isInt32 x) : wrap32 x = x := by
  unfold isInt32 at h
  unfold wrap32
  omega

theorem isInt32_wrap32 (x : Int) : isInt32 (wrap32 x) := by
  unfold isInt32 wrap32
  omega

/-- The value of `validPin` in terms of the mathematical remainder. -/
theorem validPin_iff (pin : Int) : validPin pin = true ↔ 0 < pin ∧ pin % 1111 ≠ 0 := by
  unfold validPin
  rw [decide_eq_true_iff]
  rcases tmod_1111 pin with ⟨h, e⟩ | ⟨h, e⟩ <;> rw [e] <;> omega

/-- The result of `randomFor` always lies strictly between `-10000` and `10000`. -/
theorem randomFor_bounds (salt index : Int) :
    -9999 ≤ randomFor salt index ∧ randomFor salt index ≤ 9999 := by
  unfold randomFor
  rcases tmod_10000 (wrap32 (salt + wrap32 (index * prime))) with ⟨h, e⟩ | ⟨h, e⟩ <;>
    rw [e] <;> omega

/-- When the sum `salt + index * 6277` is a non-negative `int`, `randomFor` returns its
mathematical residue modulo `10000`. -/
theorem randomFor_of_sum {salt index : Int} (hi : 0 ≤ index) (hi' : index ≤ 9999)
    (h0 : 0 ≤ salt + index * 6277) (h1 : salt + index * 6277 ≤ 2147483647) :
    randomFor salt index = (salt + index * 6277) % 10000 := by
  unfold randomFor prime
  have e1 : wrap32 (index * 6277) = index * 6277 := by unfold wrap32; omega
  have e2 : wrap32 (salt + index * 6277) = salt + index * 6277 := by unfold wrap32; omega
  rw [e1, e2, Int.tmod_eq_emod h0 (by norm_num)]

theorem randomFor_of_good {salt index : Int} (hs : goodSalt salt) (hi : 0 ≤ index)
    (hi' : index ≤ 9999) : randomFor salt index = (salt + index * 6277) % 10000 := by
  unfold goodSalt at hs
  exact randomFor_of_sum hi hi' (by omega) (by omega)

/-- A valid PIN computed by `randomFor` from an `int` salt at an index of the ring is the
mathematical residue of `salt + index * 6277`: the sum did not overflow and is positive. -/
theorem randomFor_of_valid {salt index : Int} (hs : isInt32 salt) (hi : 0 ≤ index)
    (hi' : index ≤ 9999) (hv : validPin (randomFor salt index) = true) :
    randomFor salt index = (salt + index * 6277) % 10000 ∧ 0 < salt + index * 6277
      ∧ salt + index * 6277 ≤ 2147483647 := by
  rw [validPin_iff] at hv
  unfold isInt32 at hs
  have e1 : wrap32 (index * 6277) = index * 6277 := by unfold wrap32; omega
  have hv1 := hv.1
  unfold randomFor prime at hv1 ⊢
  rw [e1] at hv1 ⊢
  have hw : 0 < wrap32 (salt + index * 6277) := by
    rcases tmod_10000 (wrap32 (salt + index * 6277)) with ⟨h, e⟩ | ⟨h, e⟩
    · rw [e] at hv1; omega
    · rw [e] at hv1; omega
  have hsum : 0 < salt + index * 6277 ∧ salt + index * 6277 ≤ 2147483647 := by
    unfold wrap32 at hw; omega
  have e2 : wrap32 (salt + index * 6277) = salt + index * 6277 := by unfold wrap32; omega
  rw [e2, Int.tmod_eq_emod hsum.1.le (by norm_num)]
  exact ⟨rfl, hsum⟩

/-- Two valid PINs computed under one `int` salt at indices of the ring are equal only
when the indices are. -/
theorem randomFor_inj_of_valid {salt i j : Int} (hs : isInt32 salt)
    (hi : 0 ≤ i) (hi' : i ≤ 9999) (hj : 0 ≤ j) (hj' : j ≤ 9999)
    (vi : validPin (randomFor salt i) = true) (vj : validPin (randomFor salt j) = true)
    (h : randomFor salt i = randomFor salt j) : i = j := by
  obtain ⟨ei, _, _⟩ := randomFor_of_valid hs hi hi' vi
  obtain ⟨ej, _, _⟩ := randomFor_of_valid hs hj hj' vj
  rw [ei, ej] at h
  omega

/-! ## The body of the `while` loop -/

theorem nextIndex_done {clock : Clock} {g g1 : Gen} (h : nextIndex clock g = Outcome.done g1) :
    (g.pIndex = 9999 ∧ ∃ tv, clock g.ticks = some tv ∧ g1 = ⟨0, wrap32 tv, g.ticks + 1⟩) ∨
    (g.pIndex ≠ 9999 ∧ g1 = ⟨wrap32 (g.pIndex + 1), g.salt, g.ticks⟩) := by
  unfold nextIndex at h
  split at h
  · rename_i h9
    left
    refine ⟨h9, ?_⟩
    cases hc : clock g.ticks with
    | none => rw [hc] at h; simp [makeSalt] at h
    | some tv =>
      rw [hc] at h
      simp only [makeSalt] at h
      exact ⟨tv, rfl, (Outcome.done.inj h).symm⟩
  · rename_i h9
    right
    exact ⟨h9, (Outcome.done.inj h).symm⟩

/-- One execution of the head of the loop body keeps the index in the ring and the salt
an `int`, never decreases the number of clock readings, and leaves the salt alone and
moves the index up when it reads no clock. -/
theorem nextIndex_spec {clock : Clock} {g g1 : Gen} (h : nextIndex clock g = Outcome.done g1)
    (h0 : 0 ≤ g.pIndex) (h1 : g.pIndex ≤ 9999) :
    0 ≤ g1.pIndex ∧ g1.pIndex ≤ 9999 ∧ g.ticks ≤ g1.ticks ∧
      (isInt32 g.salt → isInt32 g1.salt) ∧
      (g1.ticks = g.ticks → g1.salt = g.salt ∧ g1.pIndex = g.pIndex + 1) := by
  rcases nextIndex_done h with ⟨_, tv, _, rfl⟩ | ⟨h9, rfl⟩
  · refine ⟨le_refl _, by norm_num, Nat.le_succ _, fun _ => isInt32_wrap32 tv, ?_⟩
    intro hh
    simp at hh
  · have e : wrap32 (g.pIndex + 1) = g.pIndex + 1 := by unfold wrap32; omega
    refine ⟨?_, ?_, le_refl _, fun hs => hs, fun _ => ⟨rfl, e⟩⟩
    · show 0 ≤ wrap32 (g.pIndex + 1)
      omega
    · show wrap32 (g.pIndex + 1) ≤ 9999
      omega

theorem nextIndex_ticks {clock : Clock} {g g1 : Gen} (h : nextIndex clock g = Outcome.done g1) :
    g.ticks ≤ g1.ticks := by
  rcases nextIndex_done h with ⟨_, tv, _, rfl⟩ | ⟨h9, rfl⟩
  · exact Nat.le_succ _
  · exact le_refl _

/-! ## The `while` loop -/

theorem advance_succ_done {clock : Clock} {fuel : Nat} {g g2 : Gen} {p : Int}
    (h : advance clock (fuel + 1) g = Outcome.done (g2, p)) :
    ∃ g1, nextIndex clock g = Outcome.done g1 ∧
      ((validPin (randomFor g1.salt g1.pIndex) = true ∧ g2 = g1 ∧ p = randomFor g1.salt g1.pIndex)
        ∨ (validPin (randomFor g1.salt g1.pIndex) = false ∧
            advance clock fuel g1 = Outcome.done (g2, p))) := by
  unfold advance at h
  cases hn : nextIndex clock g with
  | done g1 =>
    rw [hn] at h
    refine ⟨g1, rfl, ?_⟩
    cases hv : validPin (randomFor g1.salt g1.pIndex) with
    | true =>
      simp only [hv, if_true] at h
      have := Outcome.done.inj h
      left
      exact ⟨rfl, (Prod.mk.inj this).1.symm, (Prod.mk.inj this).2.symm⟩
    | false =>
      simp only [hv] at h
      right
      exact ⟨rfl, h⟩
  | exit c => rw [hn] at h; simp at h
  | outOfFuel => rw [hn] at h; simp at h

/-- Whatever the state and the clock, a PIN the `while` loop leaves in `pins[i]` passed
`validPin` and is `randomFor` of the state the loop ends in. -/
theorem advance_valid {clock : Clock} : ∀ {fuel : Nat} {g g2 : Gen} {p : Int},
    advance clock fuel g = Outcome.done (g2, p) →
      validPin p = true ∧ p = randomFor g2.salt g2.pIndex ∧ g.ticks ≤ g2.ticks := by
  intro fuel
  induction fuel with
  | zero => intro g g2 p h; simp [advance] at h
  | succ n ih =>
    intro g g2 p h
    obtain ⟨g1, hn, ⟨hv, rfl, rfl⟩ | ⟨_, hrec⟩⟩ := advance_succ_done h
    · exact ⟨hv, rfl, nextIndex_ticks hn⟩
    · obtain ⟨a, b, c⟩ := ih hrec
      exact ⟨a, b, le_trans (nextIndex_ticks hn) c⟩

/-- From a state whose index is in the ring, the `while` loop ends in such a state; when it
has read no clock, the salt is the one it started with and the index has moved up. -/
theorem advance_spec {clock : Clock} : ∀ {fuel : Nat} {g g2 : Gen} {p : Int},
    advance clock fuel g = Outcome.done (g2, p) → 0 ≤ g.pIndex → g.pIndex ≤ 9999 →
      0 ≤ g2.pIndex ∧ g2.pIndex ≤ 9999 ∧ (isInt32 g.salt → isInt32 g2.salt) ∧
      (g2.ticks = g.ticks → g2.salt = g.salt ∧ g.pIndex < g2.pIndex) := by
  intro fuel
  induction fuel with
  | zero => intro g g2 p h; simp [advance] at h
  | succ n ih =>
    intro g g2 p h h0 h1
    obtain ⟨g1, hn, hcase⟩ := advance_succ_done h
    obtain ⟨a0, a1, at1, as1, ae1⟩ := nextIndex_spec hn h0 h1
    rcases hcase with ⟨hv, rfl, rfl⟩ | ⟨_, hrec⟩
    · exact ⟨a0, a1, as1, fun e => ⟨(ae1 e).1, by have := (ae1 e).2; omega⟩⟩
    · obtain ⟨b0, b1, bs, be⟩ := ih hrec a0 a1
      have ht := (advance_valid hrec).2.2
      refine ⟨b0, b1, fun hs => bs (as1 hs), ?_⟩
      intro e
      have e1 : g1.ticks = g.ticks := by omega
      have e2 : g2.ticks = g1.ticks := by omega
      obtain ⟨c1, c2⟩ := ae1 e1
      obtain ⟨d1, d2⟩ := be e2
      exact ⟨by rw [d1, c1], by omega⟩

/-! ## The `for` loop -/

theorem generateLoop_acc (clock : Clock) (fuel : Nat) : ∀ (n : Nat) (g : Gen) (acc : List Int),
    generateLoop clock fuel n g acc =
      match generateLoop clock fuel n g [] with
      | Outcome.done (g2, pins) => Outcome.done (g2, acc ++ pins)
      | Outcome.exit c => Outcome.exit c
      | Outcome.outOfFuel => Outcome.outOfFuel := by
  intro n
  induction n with
  | zero => intro g acc; simp [generateLoop]
  | succ n ih =>
    intro g acc
    unfold generateLoop
    cases advance clock fuel g with
    | done r =>
      obtain ⟨g1, pin⟩ := r
      simp only
      rw [ih g1 (acc ++ [pin]), ih g1 ([] ++ [pin])]
      cases generateLoop clock fuel n g1 [] with
      | done r2 => simp
      | exit c => rfl
      | outOfFuel => rfl
    | exit c => rfl
    | outOfFuel => rfl

/-- The `for` loop of `main` computes what the specification's `generate` describes,
also when it does not complete. -/
theorem generate_eq_generateSpec (clock : Clock) (fuel : Nat) : ∀ (count : Nat) (g : Gen),
    generate clock fuel g count = generateSpec clock fuel g count := by
  intro count
  induction count with
  | zero => intro g; rfl
  | succ n ih =>
    intro g
    unfold generate generateLoop generateSpec
    cases advance clock fuel g with
    | done r =>
      obtain ⟨g1, pin⟩ := r
      simp only
      rw [generateLoop_acc, ← ih g1]
      unfold generate
      cases generateLoop clock fuel n g1 [] with
      | done r2 => simp
      | exit c => rfl
      | outOfFuel => rfl
    | exit c => rfl
    | outOfFuel => rfl

theorem generate_zero (clock : Clock) (fuel : Nat) (g : Gen) :
    generate clock fuel g 0 = Outcome.done (g, []) := rfl

theorem generate_succ_done {clock : Clock} {fuel n : Nat} {g g2 : Gen} {pins : List Int}
    (h : generate clock fuel g (n + 1) = Outcome.done (g2, pins)) :
    ∃ g1 p ps, advance clock fuel g = Outcome.done (g1, p) ∧
      generate clock fuel g1 n = Outcome.done (g2, ps) ∧ pins = p :: ps := by
  rw [generate_eq_generateSpec] at h
  unfold generateSpec at h
  cases ha : advance clock fuel g with
  | done r =>
    obtain ⟨g1, pin⟩ := r
    rw [ha] at h
    simp only at h
    cases hg : generateSpec clock fuel g1 n with
    | done r2 =>
      obtain ⟨g3, ps⟩ := r2
      rw [hg] at h
      simp only at h
      have := Outcome.done.inj h
      refine ⟨g1, pin, ps, rfl, ?_, (Prod.mk.inj this).2.symm⟩
      rw [generate_eq_generateSpec, hg, (Prod.mk.inj this).1]
    | exit c => rw [hg] at h; simp at h
    | outOfFuel => rw [hg] at h; simp at h
  | exit c => rw [ha] at h; simp at h
  | outOfFuel => rw [ha] at h; simp at h

theorem generate_succ_of_done {clock : Clock} {fuel n : Nat} {g g1 g2 : Gen} {p : Int}
    {ps : List Int} (ha : advance clock fuel g = Outcome.done (g1, p))
    (hg : generate clock fuel g1 n = Outcome.done (g2, ps)) :
    generate clock fuel g (n + 1) = Outcome.done (g2, p :: ps) := by
  rw [generate_eq_generateSpec] at hg ⊢
  unfold generateSpec
  rw [ha]
  simp only
  rw [hg]

/-- A completed generation yields `count` PINs, each of which passed `validPin`, and never
moves the clock backwards. -/
theorem generate_valid {clock : Clock} {fuel : Nat} : ∀ {count : Nat} {g g2 : Gen}
    {pins : List Int}, generate clock fuel g count = Outcome.done (g2, pins) →
      pins.length = count ∧ (∀ p ∈ pins, validPin p = true) ∧ g.ticks ≤ g2.ticks := by
  intro count
  induction count with
  | zero =>
    intro g g2 pins h
    rw [generate_zero] at h
    have := Outcome.done.inj h
    rw [← (Prod.mk.inj this).2, ← (Prod.mk.inj this).1]
    simp
  | succ n ih =>
    intro g g2 pins h
    obtain ⟨g1, p, ps, ha, hg, rfl⟩ := generate_succ_done h
    obtain ⟨hl, hv, ht⟩ := ih hg
    obtain ⟨pv, _, pt⟩ := advance_valid ha
    refine ⟨by simp [hl], ?_, le_trans pt ht⟩
    intro q hq
    rcases List.mem_cons.mp hq with rfl | hq
    · exact pv
    · exact hv q hq

/-- A completed generation from a state with its index in the ring ends in such a state. -/
theorem generate_range {clock : Clock} {fuel : Nat} : ∀ {count : Nat} {g g2 : Gen}
    {pins : List Int}, generate clock fuel g count = Outcome.done (g2, pins) →
      0 ≤ g.pIndex → g.pIndex ≤ 9999 →
      0 ≤ g2.pIndex ∧ g2.pIndex ≤ 9999 ∧ (isInt32 g.salt → isInt32 g2.salt) := by
  intro count
  induction count with
  | zero =>
    intro g g2 pins h h0 h1
    rw [generate_zero] at h
    have := Outcome.done.inj h
    rw [← (Prod.mk.inj this).1]
    exact ⟨h0, h1, fun hs => hs⟩
  | succ n ih =>
    intro g g2 pins h h0 h1
    obtain ⟨g1, p, ps, ha, hg, rfl⟩ := generate_succ_done h
    obtain ⟨a0, a1, as1, _⟩ := advance_spec ha h0 h1
    obtain ⟨b0, b1, bs⟩ := ih hg a0 a1
    exact ⟨b0, b1, fun hs => bs (as1 hs)⟩

/-- A completed generation that reads no clock: the PINs are `randomFor` of the unchanged
salt at strictly increasing indices of the ring, above the index it started from. -/
theorem generate_same_epoch {clock : Clock} {fuel : Nat} : ∀ {count : Nat} {g g2 : Gen}
    {pins : List Int}, generate clock fuel g count = Outcome.done (g2, pins) →
      0 ≤ g.pIndex → g.pIndex ≤ 9999 → g2.ticks = g.ticks →
      g2.salt = g.salt ∧ g.pIndex ≤ g2.pIndex ∧
      ∃ idxs : List Int, pins = idxs.map (randomFor g.salt) ∧ idxs.Pairwise (· < ·) ∧
        ∀ i ∈ idxs, g.pIndex < i ∧ i ≤ g2.pIndex ∧ validPin (randomFor g.salt i) = true := by
  intro count
  induction count with
  | zero =>
    intro g g2 pins h h0 h1 _
    rw [generate_zero] at h
    have := Outcome.done.inj h
    rw [← (Prod.mk.inj this).1, ← (Prod.mk.inj this).2]
    exact ⟨rfl, le_refl _, [], rfl, List.Pairwise.nil, by simp⟩
  | succ n ih =>
    intro g g2 pins h h0 h1 ht
    obtain ⟨g1, p, ps, ha, hg, rfl⟩ := generate_succ_done h
    obtain ⟨a0, a1, _, ae⟩ := advance_spec ha h0 h1
    obtain ⟨pv, pe, pt⟩ := advance_valid ha
    have gt := (generate_valid hg).2.2
    have e1 : g1.ticks = g.ticks := by omega
    have e2 : g2.ticks = g1.ticks := by omega
    obtain ⟨s1, i1⟩ := ae e1
    obtain ⟨s2, i2, idxs, hp, hpw, hall⟩ := ih hg a0 a1 e2
    rw [s1] at s2 hp hall pe
    refine ⟨s2, by omega, g1.pIndex :: idxs, ?_, ?_, ?_⟩
    · rw [List.map_cons, ← pe, hp]
    · rw [List.pairwise_cons]
      exact ⟨fun b hb => (hall b hb).1, hpw⟩
    · intro i hi
      rcases List.mem_cons.mp hi with rfl | hi
      · exact ⟨i1, i2, by rw [← pe]; exact pv⟩
      · obtain ⟨c1, c2, c3⟩ := hall i hi
        exact ⟨by omega, c2, c3⟩

/-! ## One epoch under a good salt -/

/-- Under a good salt no two consecutive indices of the ring both give an excluded
candidate. -/
theorem valid_succ_of_invalid {salt i : Int} (hs : goodSalt salt) (hi : 0 ≤ i)
    (hi' : i + 1 ≤ 9999) (h : validPin (randomFor salt i) = false) :
    validPin (randomFor salt (i + 1)) = true := by
  rw [← Bool.not_eq_true, validPin_iff, randomFor_of_good hs hi (by omega)] at h
  rw [validPin_iff, randomFor_of_good hs (by omega) hi']
  omega

theorem epochIndices_of_le {salt : Int} {a : Nat} (h : 10000 ≤ a) : epochIndices salt a = [] := by
  unfold epochIndices
  rw [Nat.sub_eq_zero_of_le h]
  rfl

theorem epochIndices_step (salt : Int) {a : Nat} (h : a < 10000) :
    epochIndices salt a =
      if validPin (randomFor salt (a : Int)) then a :: epochIndices salt (a + 1)
      else epochIndices salt (a + 1) := by
  unfold epochIndices
  have e : 10000 - a = (10000 - (a + 1)) + 1 := by omega
  rw [e, List.range'_succ, List.filter_cons]

theorem mem_epochIndices {salt : Int} {a i : Nat} :
    i ∈ epochIndices salt a ↔ a ≤ i ∧ i < 10000 ∧ validPin (randomFor salt (i : Int)) = true := by
  unfold epochIndices
  rw [List.mem_filter, List.mem_range'_1]
  constructor
  · rintro ⟨⟨h1, h2⟩, h3⟩
    exact ⟨h1, by omega, h3⟩
  · rintro ⟨h1, h2, h3⟩
    exact ⟨⟨h1, by omega⟩, h3⟩

theorem nodup_epochIndices (salt : Int) (a : Nat) : (epochIndices salt a).Nodup :=
  (List.nodup_range' a (10000 - a)).filter _

/-- Within an epoch under a good salt: when the next index to examine is `a` and `j` is
the first index from `a` on with a valid candidate, the `while` loop stops at `j` after at
most two iterations, without reading the clock. -/
theorem advance_in_epoch {clock : Clock} {salt : Int} (hs : goodSalt salt) {g : Gen}
    {a t j : Nat} {rest : List Nat}
    (hn : nextIndex clock g = Outcome.done ⟨(a : Int), salt, t⟩)
    (hl : epochIndices salt a = j :: rest) (fuel : Nat) :
    advance clock (fuel + 2) g = Outcome.done (⟨(j : Int), salt, t⟩, randomFor salt (j : Int))
      ∧ epochIndices salt (j + 1) = rest ∧ j < 10000 := by
  have ha : a < 10000 := by
    by_contra hc
    rw [epochIndices_of_le (by omega)] at hl
    exact List.noConfusion hl
  rw [epochIndices_step salt ha] at hl
  cases hv : validPin (randomFor salt (a : Int)) with
  | true =>
    rw [hv] at hl
    simp only [if_true] at hl
    obtain ⟨rfl, rfl⟩ := List.cons.inj hl
    refine ⟨?_, rfl, ha⟩
    unfold advance
    rw [hn]
    simp only [hv, if_true]
  | false =>
    rw [hv] at hl
    simp only [Bool.false_eq_true, if_false] at hl
    have ha1 : a + 1 < 10000 := by
      by_contra hc
      rw [epochIndices_of_le (by omega)] at hl
      exact List.noConfusion hl
    have hv1 : validPin (randomFor salt ((a + 1 : Nat) : Int)) = true := by
      rw [Nat.cast_add, Nat.cast_one]
      exact valid_succ_of_invalid hs (by omega) (by omega) hv
    rw [epochIndices_step salt ha1, hv1] at hl
    simp only [if_true] at hl
    obtain ⟨rfl, rfl⟩ := List.cons.inj hl
    refine ⟨?_, rfl, ha1⟩
    have hn1 : nextIndex clock ⟨(a : Int), salt, t⟩
        = Outcome.done ⟨((a + 1 : Nat) : Int), salt, t⟩ := by
      unfold nextIndex
      have h9 : ¬ ((a : Int) = 9999) := by omega
      have e : wrap32 ((a : Int) + 1) = ((a + 1 : Nat) : Int) := by
        unfold wrap32
        omega
      simp only [h9, if_false, e]
    unfold advance
    rw [hn]
    simp only [hv, Bool.false_eq_true, if_false]
    unfold advance
    rw [hn1]
    simp only [hv1, if_true]

/-- Within an epoch under a good salt, the generation loop emits the candidates at the
valid indices in increasing order, without reading the clock. -/
theorem generate_in_epoch {clock : Clock} {salt : Int} (hs : goodSalt salt) (fuel t : Nat) :
    ∀ (n : Nat) (g : Gen) (a : Nat),
      nextIndex clock g = Outcome.done ⟨(a : Int), salt, t⟩ →
      n + 1 ≤ (epochIndices salt a).length →
      ∃ j : Nat, generate clock (fuel + 2) g (n + 1) =
          Outcome.done (⟨(j : Int), salt, t⟩,
            ((epochIndices salt a).take (n + 1)).map (fun (i : Nat) => randomFor salt (i : Int)))
        ∧ epochIndices salt (j + 1) = (epochIndices salt a).drop (n + 1) ∧ j < 10000 := by
  intro n
  induction n with
  | zero =>
    intro g a hn hlen
    cases hl : epochIndices salt a with
    | nil => rw [hl] at hlen; simp at hlen
    | cons j rest =>
      obtain ⟨h1, h2, h3⟩ := advance_in_epoch hs hn hl fuel
      refine ⟨j, ?_, by simpa using h2, h3⟩
      rw [generate_succ_of_done h1 (generate_zero _ _ _)]
      simp
  | succ n ih =>
    intro g a hn hlen
    cases hl : epochIndices salt a with
    | nil => rw [hl] at hlen; simp at hlen
    | cons j rest =>
      obtain ⟨h1, h2, h3⟩ := advance_in_epoch hs hn hl fuel
      rw [hl] at hlen
      have hrest : n + 1 ≤ (epochIndices salt (j + 1)).length := by
        rw [h2]
        simpa using hlen
      have hj : j + 1 < 10000 := by
        by_contra hc
        rw [epochIndices_of_le (by omega)] at hrest
        simp at hrest
      have hn1 : nextIndex clock ⟨(j : Int), salt, t⟩
          = Outcome.done ⟨((j + 1 : Nat) : Int), salt, t⟩ := by
        unfold nextIndex
        have h9 : ¬ ((j : Int) = 9999) := by omega
        have e : wrap32 ((j : Int) + 1) = ((j + 1 : Nat) : Int) := by
          unfold wrap32
          omega
        simp only [h9, if_false, e]
      obtain ⟨k, k1, k2, k3⟩ := ih ⟨(j : Int), salt, t⟩ (j + 1) hn1 hrest
      refine ⟨k, ?_, ?_, k3⟩
      · rw [generate_succ_of_done h1 k1, h2]
        simp
      · rw [k2, h2]
        simp

theorem randomFor_inj_of_good {salt i j : Int} (hs : goodSalt salt) (hi : 0 ≤ i)
    (hi' : i ≤ 9999) (hj : 0 ≤ j) (hj' : j ≤ 9999) (h : randomFor salt i = randomFor salt j) :
    i = j := by
  rw [randomFor_of_good hs hi hi', randomFor_of_good hs hj hj'] at h
  omega

/-- The index at which a value of the ring is found: `9213` is the inverse of `6277`
modulo `10000`. -/
theorem randomFor_surj_of_good {salt v : Int} (hs : goodSalt salt) (v0 : 0 ≤ v)
    (v1 : v ≤ 9999) : ∃ i : Int, 0 ≤ i ∧ i ≤ 9999 ∧ randomFor salt i = v := by
  refine ⟨(v - salt) * 9213 % 10000, by omega, by omega, ?_⟩
  rw [randomFor_of_good hs (by omega) (by omega)]
  omega

theorem length_validValues : validValues.length = 9990 := by
  unfold validValues
  decide!

/-- Under a good salt the valid candidates of an epoch are, up to order, the 9990 values of
`[0, 9999]` that are not multiples of 1111. -/
theorem epoch_pins_perm {salt : Int} (hs : goodSalt salt) :
    ((epochIndices salt 0).map (fun (i : Nat) => randomFor salt (i : Int))).Perm
      (validValues.map (fun (v : Nat) => (v : Int))) := by
  rw [List.perm_ext_iff_of_nodup]
  · intro v
    simp only [List.mem_map, mem_epochIndices, validValues, List.mem_filter, List.mem_range,
      decide_eq_true_eq]
    constructor
    · rintro ⟨i, ⟨_, hi, hv⟩, rfl⟩
      have hb := randomFor_bounds salt (i : Int)
      rw [validPin_iff] at hv
      refine ⟨(randomFor salt (i : Int)).toNat, ⟨by omega, by omega⟩, by omega⟩
    · rintro ⟨n, ⟨hn, hm⟩, rfl⟩
      obtain ⟨i, i0, i1, hi⟩ := randomFor_surj_of_good hs (v := (n : Int)) (by omega) (by omega)
      refine ⟨i.toNat, ⟨Nat.zero_le _, by omega, ?_⟩, ?_⟩
      · rw [Int.toNat_of_nonneg i0, hi, validPin_iff]
        omega
      · rw [Int.toNat_of_nonneg i0, hi]
  · refine List.Nodup.map_on ?_ (nodup_epochIndices salt 0)
    intro x hx y hy hxy
    have hx1 := (mem_epochIndices.mp hx).2.1
    have hy1 := (mem_epochIndices.mp hy).2.1
    have := randomFor_inj_of_good hs (by omega) (by omega) (by omega) (by omega) hxy
    omega
  · refine List.Nodup.map_on ?_ ((List.nodup_range 10000).filter _)
    intro x _ y _ hxy
    omega

theorem length_epochIndices {salt : Int} (hs : goodSalt salt) :
    (epochIndices salt 0).length = 9990 := by
  have := (epoch_pins_perm hs).length_eq
  rw [List.length_map, List.length_map, length_validValues] at this
  exact this

theorem epochIndices_ne_nil {salt : Int} (hs : goodSalt salt) {a : Nat} (ha : a + 1 < 10000) :
    ∃ j rest, epochIndices salt a = j :: rest := by
  rw [epochIndices_step salt (by omega : a < 10000)]
  cases hv : validPin (randomFor salt (a : Int)) with
  | true => exact ⟨a, epochIndices salt (a + 1), by simp⟩
  | false =>
    have hv1 : validPin (randomFor salt ((a + 1 : Nat) : Int)) = true := by
      rw [Nat.cast_add, Nat.cast_one]
      exact valid_succ_of_invalid hs (by omega) (by omega) hv
    rw [epochIndices_step salt ha, hv1]
    exact ⟨a + 1, epochIndices salt (a + 1 + 1), by simp⟩

/-! ## Progress under a good clock -/

theorem advance_progress_in_epoch {clock : Clock} {salt : Int} (hs : goodSalt salt) {g : Gen}
    {a t : Nat} (hn : nextIndex clock g = Outcome.done ⟨(a : Int), salt, t⟩)
    (ha : a + 1 < 10000) (fuel : Nat) :
    ∃ g2 p, advance clock (fuel + 2) g = Outcome.done (g2, p) ∧ goodGen g2 := by
  obtain ⟨j, rest, hl⟩ := epochIndices_ne_nil hs ha
  obtain ⟨h1, _, h3⟩ := advance_in_epoch hs hn hl fuel
  refine ⟨_, _, h1, ?_⟩
  unfold goodGen
  exact ⟨by simp, by simp only; omega, Or.inr hs⟩

theorem advance_progress_boundary {clock : Clock} (hc : goodClock clock) {g : Gen}
    (h9 : g.pIndex = 9999) (fuel : Nat) :
    ∃ g2 p, advance clock (fuel + 2) g = Outcome.done (g2, p) ∧ goodGen g2 := by
  obtain ⟨tv, htv, hs⟩ := hc g.ticks
  have hn : nextIndex clock g = Outcome.done ⟨((0 : Nat) : Int), tv, g.ticks + 1⟩ := by
    unfold nextIndex
    have e : wrap32 tv = tv := by
      unfold goodSalt at hs
      unfold wrap32
      omega
    simp only [h9, if_true, htv, makeSalt, e, Nat.cast_zero]
  exact advance_progress_in_epoch hs hn (by norm_num) fuel

/-- Under a good clock the `while` loop, started in a good state, stops within three
iterations, in a good state. -/
theorem advance_progress {clock : Clock} (hc : goodClock clock) {g : Gen} (hg : goodGen g)
    (fuel : Nat) : ∃ g2 p, advance clock (fuel + 3) g = Outcome.done (g2, p) ∧ goodGen g2 := by
  obtain ⟨h0, h1, hsalt⟩ := hg
  by_cases h9 : g.pIndex = 9999
  · exact advance_progress_boundary hc h9 (fuel + 1)
  · have hs : goodSalt g.salt := hsalt.resolve_left h9
    have e : wrap32 (g.pIndex + 1) = (((g.pIndex + 1).toNat : Nat) : Int) := by
      unfold wrap32
      omega
    have hn : nextIndex clock g
        = Outcome.done ⟨(((g.pIndex + 1).toNat : Nat) : Int), g.salt, g.ticks⟩ := by
      unfold nextIndex
      simp only [h9, if_false, e]
    by_cases h8 : g.pIndex = 9998
    · cases hv : validPin (randomFor g.salt (((g.pIndex + 1).toNat : Nat) : Int)) with
      | true =>
        refine ⟨⟨(((g.pIndex + 1).toNat : Nat) : Int), g.salt, g.ticks⟩,
          randomFor g.salt (((g.pIndex + 1).toNat : Nat) : Int), ?_, ?_⟩
        · unfold advance
          rw [hn]
          simp only [hv, if_true]
        · unfold goodGen
          simp only
          omega
      | false =>
        have hb : (⟨(((g.pIndex + 1).toNat : Nat) : Int), g.salt, g.ticks⟩ : Gen).pIndex = 9999 := by
          simp only
          omega
        obtain ⟨g2, p, hadv, hgood⟩ := advance_progress_boundary hc hb fuel
        refine ⟨g2, p, ?_, hgood⟩
        unfold advance
        rw [hn]
        simp only [hv, Bool.false_eq_true, if_false]
        exact hadv
    · exact advance_progress_in_epoch hs hn (by omega) (fuel + 1)

/-- Under a good clock the generation loop, started in a good state, completes for every
count when each run of the `while` loop may take three iterations. -/
theorem generate_progress {clock : Clock} (hc : goodClock clock) (fuel : Nat) :
    ∀ (count : Nat) (g : Gen), goodGen g →
      ∃ g2 pins, generate clock (fuel + 3) g count = Outcome.done (g2, pins) ∧ goodGen g2 := by
  intro count
  induction count with
  | zero => intro g hg; exact ⟨g, [], generate_zero _ _ _, hg⟩
  | succ n ih =>
    intro g hg
    obtain ⟨g1, p, ha, hg1⟩ := advance_progress hc hg fuel
    obtain ⟨g2, ps, hgen, hg2⟩ := ih g1 hg1
    exact ⟨g2, p :: ps, generate_succ_of_done ha hgen, hg2⟩

/-! ## Output format -/

theorem digitChar_isDigit (k : Nat) (h : k < 10) : (Nat.digitChar k).isDigit = true := by
  interval_cases k <;> decide

theorem toDigitsCore_isDigit : ∀ (fuel n : Nat) (ds : List Char),
    (∀ c ∈ ds, c.isDigit = true) → ∀ c ∈ Nat.toDigitsCore 10 fuel n ds, c.isDigit = true := by
  intro fuel
  induction fuel with
  | zero => intro n ds h; simpa [Nat.toDigitsCore] using h
  | succ f ih =>
    intro n ds h
    have hd : ∀ c ∈ Nat.digitChar (n % 10) :: ds, c.isDigit = true := by
      intro c hc
      rcases List.mem_cons.mp hc with rfl | hc
      · exact digitChar_isDigit _ (Nat.mod_lt _ (by norm_num))
      · exact h c hc
    unfold Nat.toDigitsCore
    simp only
    split
    · exact hd
    · exact ih _ _ hd

theorem toDigits_length_le (n : Nat) (h : n < 10000) : (Nat.toDigits 10 n).length ≤ 4 :=
  Nat.toDigitsCore_length 10 (by norm_num) (n + 1) n 4 (by norm_num; exact h) (by norm_num)

/-- A value in `[0, 9999]` is printed by `%04d` as exactly four decimal digits. -/
theorem fmt04_of_range {pin : Int} (h0 : 0 ≤ pin) (h1 : pin ≤ 9999) :
    (fmt04 pin).length = 4 ∧ ∀ c ∈ fmt04 pin, c.isDigit = true := by
  unfold fmt04
  rw [if_pos h0]
  have hl := toDigits_length_le pin.toNat (by omega)
  constructor
  · rw [List.leftpad_length]
    exact max_eq_left hl
  · intro c hc
    unfold List.leftpad at hc
    rcases List.mem_append.mp hc with hc | hc
    · rw [(List.mem_replicate.mp hc).2]
      decide
    · exact toDigitsCore_isDigit _ _ [] (by simp) c hc

/-! ## Saving and loading the state -/

theorem decodeInt_encodeInt {x : Int} (h : isInt32 x) (tail : List Nat) :
    decodeInt (encodeInt x ++ tail) = x := by
  unfold isInt32 at h
  unfold decodeInt encodeInt wrap32
  simp only [List.cons_append, List.getD_cons_zero, List.getD_cons_succ, Int.ofNat_eq_coe]
  omega

/-- What `store` leaves in the file, `load` reads back, whatever was in the file and in
the variables before. -/
theorem load_store {index salt : Int} (hi : isInt32 index) (hs : isInt32 salt) {d : Disk}
    (hd : d.canOpen = true) (index0 salt0 : Int) :
    ∃ d1, store index salt d = Outcome.done d1 ∧
      ∃ d2, load index0 salt0 d1 = Outcome.done (d2, index, salt) := by
  have e1 : ∀ (c : List Nat), readInt index0 (encodeInt index ++ c) = index := by
    intro c
    unfold readInt intSize
    have : (encodeInt index ++ c).take 4 = encodeInt index := by simp [encodeInt]
    rw [this]
    exact decodeInt_encodeInt hi _
  have e2 : ∀ (c : List Nat), readInt salt0 (encodeInt salt ++ c) = salt := by
    intro c
    unfold readInt intSize
    have : (encodeInt salt ++ c).take 4 = encodeInt salt := by simp [encodeInt]
    rw [this]
    exact decodeInt_encodeInt hs _
  have e3 : ∀ (c : List Nat), writeAt intSize (encodeInt salt) (writeAt 0 (encodeInt index) c)
      = encodeInt index ++ (encodeInt salt ++ c.drop 8) := by
    intro c
    unfold writeAt intSize
    simp [encodeInt]
  refine ⟨⟨some (encodeInt index ++ (encodeInt salt ++ (d.file.getD []).drop 8)), true⟩, ?_, ?_⟩
  · unfold store openRandomFile
    simp only [hd, if_true, Option.getD_some, e3]
  · refine ⟨⟨some (encodeInt index ++ (encodeInt salt ++ (d.file.getD []).drop 8)), true⟩, ?_⟩
    unfold load openRandomFile
    simp only [if_true, Option.getD_some, e1]
    have : (encodeInt index ++ (encodeInt salt ++ (d.file.getD []).drop 8)).drop intSize
        = encodeInt salt ++ (d.file.getD []).drop 8 := by
      simp [encodeInt, intSize]
    rw [this, e2]

theorem advance_isInt32 {clock : Clock} : ∀ {fuel : Nat} {g g2 : Gen} {p : Int},
    advance clock fuel g = Outcome.done (g2, p) → isInt32 g.salt →
      isInt32 g2.pIndex ∧ isInt32 g2.salt := by
  intro fuel
  induction fuel with
  | zero => intro g g2 p h; simp [advance] at h
  | succ n ih =>
    intro g g2 p h hs
    obtain ⟨g1, hn, hcase⟩ := advance_succ_done h
    have h1 : isInt32 g1.pIndex ∧ isInt32 g1.salt := by
      rcases nextIndex_done hn with ⟨_, tv, _, rfl⟩ | ⟨_, rfl⟩
      · exact ⟨(by decide : isInt32 0), isInt32_wrap32 tv⟩
      · exact ⟨isInt32_wrap32 _, hs⟩
    rcases hcase with ⟨_, rfl, _⟩ | ⟨_, hrec⟩
    · exact h1
    · exact ih hrec h1.2

theorem generate_isInt32 {clock : Clock} {fuel : Nat} : ∀ {count : Nat} {g g2 : Gen}
    {pins : List Int}, generate clock fuel g count = Outcome.done (g2, pins) →
      isInt32 g.pIndex → isInt32 g.salt → isInt32 g2.pIndex ∧ isInt32 g2.salt := by
  intro count
  induction count with
  | zero =>
    intro g g2 pins h hi hs
    rw [generate_zero] at h
    have := Outcome.done.inj h
    rw [← (Prod.mk.inj this).1]
    exact ⟨hi, hs⟩
  | succ n ih =>
    intro g g2 pins h _ hs
    obtain ⟨g1, p, ps, ha, hg, rfl⟩ := generate_succ_done h
    obtain ⟨a, b⟩ := advance_isInt32 ha hs
    exact ih hg a b

/-- The generation of `m + n` PINs is the generation of `m` PINs followed by that of `n`
PINs from the state reached, also when one of them does not complete. -/
theorem generateSpec_add (clock : Clock) (fuel : Nat) : ∀ (m n : Nat) (g : Gen),
    generateSpec clock fuel g (m + n) =
      match generateSpec clock fuel g m with
      | Outcome.done (g1, pins1) =>
        match generateSpec clock fuel g1 n with
        | Outcome.done (g2, pins2) => Outcome.done (g2, pins1 ++ pins2)
        | Outcome.exit c => Outcome.exit c
        | Outcome.outOfFuel => Outcome.outOfFuel
      | Outcome.exit c => Outcome.exit c
      | Outcome.outOfFuel => Outcome.outOfFuel := by
  intro m
  induction m with
  | zero =>
    intro n g
    rw [Nat.zero_add]
    simp only [generateSpec]
    cases generateSpec clock fuel g n with
    | done r => simp
    | exit c => rfl
    | outOfFuel => rfl
  | succ m ih =>
    intro n g
    have e : m + 1 + n = (m + n) + 1 := by omega
    rw [e]
    simp only [generateSpec]
    cases advance clock fuel g with
    | done r =>
      obtain ⟨g1, pin⟩ := r
      simp only
      rw [ih n g1]
      cases generateSpec clock fuel g1 m with
      | done r1 =>
        obtain ⟨g2, ps⟩ := r1
        simp only
        cases generateSpec clock fuel g2 n with
        | done r2 => simp
        | exit c => rfl
        | outOfFuel => rfl
      | exit c => rfl
      | outOfFuel => rfl
    | exit c => rfl
    | outOfFuel => rfl

theorem generate_pins_bounds {clock : Clock} {fuel : Nat} : ∀ {count : Nat} {g g2 : Gen}
    {pins : List Int}, generate clock fuel g count = Outcome.done (g2, pins) →
      ∀ p ∈ pins, -9999 ≤ p ∧ p ≤ 9999 := by
  intro count
  induction count with
  | zero =>
    intro g g2 pins h
    rw [generate_zero] at h
    have := Outcome.done.inj h
    rw [← (Prod.mk.inj this).2]
    simp
  | succ n ih =>
    intro g g2 pins h
    obtain ⟨g1, p, ps, ha, hg, rfl⟩ := generate_succ_done h
    intro q hq
    rcases List.mem_cons.mp hq with rfl | hq
    · rw [(advance_valid ha).2.1]
      exact randomFor_bounds _ _
    · exact ih hg q hq

/-- What a run of `main` prints: nothing, or the PINs of a completed generation. -/
theorem main_out (clock : Clock) (fuel : Nat) (count index0 salt0 : Int) (d : Disk)
    (ticks : Nat) :
    (main clock fuel count index0 salt0 d ticks).out = [] ∨
    ∃ g0 g2 pins, generate clock fuel g0 count.toNat = Outcome.done (g2, pins) ∧
      (main clock fuel count index0 salt0 d ticks).out = pins.map fmt04 := by
  unfold main
  simp only
  generalize (if fileExists d = true then load index0 salt0 d
    else Outcome.done (d, 9999, salt0)) = loaded
  cases loaded with
  | done r =>
    obtain ⟨d1, pIndex, salt⟩ := r
    simp only
    cases hg : generate clock fuel ⟨pIndex, salt, ticks⟩ count.toNat with
    | done r2 =>
      obtain ⟨g2, pins⟩ := r2
      simp only
      cases store g2.pIndex g2.salt d1 with
      | done d2 => exact Or.inr ⟨_, g2, pins, hg, rfl⟩
      | exit c => exact Or.inl rfl
      | outOfFuel => exact Or.inl rfl
    | exit c => exact Or.inl rfl
    | outOfFuel => exact Or.inl rfl
  | exit c => exact Or.inl rfl
  | outOfFuel => exact Or.inl rfl

/-! ## Fuel, failure and the last PIN -/

/-- More fuel does not change the result of a `while` loop that has ended. -/
theorem advance_mono {clock : Clock} : ∀ {fuel : Nat} {g : Gen} {r : Gen × Int},
    advance clock fuel g = Outcome.done r → ∀ k, advance clock (fuel + k) g = Outcome.done r := by
  intro fuel
  induction fuel with
  | zero => intro g r h; simp [advance] at h
  | succ n ih =>
    intro g r h k
    have e : n + 1 + k = (n + k) + 1 := by omega
    rw [e]
    unfold advance at h ⊢
    cases hn : nextIndex clock g with
    | done g1 =>
      rw [hn] at h
      simp only at h ⊢
      cases hv : validPin (randomFor g1.salt g1.pIndex) with
      | true =>
        simp only [hv, if_true] at h ⊢
        exact h
      | false =>
        simp only [hv, Bool.false_eq_true, if_false] at h ⊢
        exact ih h k
    | exit c => rw [hn] at h; simp at h
    | outOfFuel => rw [hn] at h; simp at h

/-- The head of the loop body leaves the process exactly when it is at index 9999 and the
clock cannot be read, and then with the status `timeError`. -/
theorem nextIndex_exit {clock : Clock} {g : Gen} {c : Int} :
    nextIndex clock g = Outcome.exit c ↔
      g.pIndex = 9999 ∧ clock g.ticks = none ∧ c = timeError := by
  unfold nextIndex
  by_cases h9 : g.pIndex = 9999
  · simp only [h9, if_true, true_and]
    cases hc : clock g.ticks with
    | none =>
      simp only [makeSalt, true_and]
      constructor
      · intro h
        exact (Outcome.exit.inj h).symm
      · intro h
        rw [h]
    | some tv => simp [makeSalt]
  · simp [h9]

/-- The `while` loop leaves the process only with the status `timeError`, after a clock
reading that failed. -/
theorem advance_exit {clock : Clock} : ∀ {fuel : Nat} {g : Gen} {c : Int},
    advance clock fuel g = Outcome.exit c →
      c = timeError ∧ ∃ k, g.ticks ≤ k ∧ clock k = none := by
  intro fuel
  induction fuel with
  | zero => intro g c h; simp [advance] at h
  | succ n ih =>
    intro g c h
    unfold advance at h
    cases hn : nextIndex clock g with
    | done g1 =>
      rw [hn] at h
      simp only at h
      cases hv : validPin (randomFor g1.salt g1.pIndex) with
      | true => simp [hv] at h
      | false =>
        simp only [hv, Bool.false_eq_true, if_false] at h
        obtain ⟨a, k, hk, hck⟩ := ih h
        exact ⟨a, k, le_trans (nextIndex_ticks hn) hk, hck⟩
    | exit c1 =>
      rw [hn] at h
      obtain ⟨_, hc, rfl⟩ := nextIndex_exit.mp hn
      exact ⟨(Outcome.exit.inj h).symm, g.ticks, le_refl _, hc⟩
    | outOfFuel => rw [hn] at h; simp at h

/-- The generation loop leaves the process only with the status `timeError`, after a clock
reading that failed. -/
theorem generate_exit {clock : Clock} {fuel : Nat} : ∀ {count : Nat} {g : Gen} {c : Int},
    generate clock fuel g count = Outcome.exit c →
      c = timeError ∧ ∃ k, g.ticks ≤ k ∧ clock k = none := by
  intro count
  induction count with
  | zero => intro g c h; rw [generate_zero] at h; simp at h
  | succ n ih =>
    intro g c h
    rw [generate_eq_generateSpec] at h
    unfold generateSpec at h
    cases ha : advance clock fuel g with
    | done r =>
      obtain ⟨g1, pin⟩ := r
      rw [ha] at h
      simp only at h
      cases hg : generateSpec clock fuel g1 n with
      | done r2 => rw [hg] at h; simp at h
      | exit c1 =>
        rw [hg] at h
        rw [← generate_eq_generateSpec] at hg
        obtain ⟨a, k, hk, hck⟩ := ih hg
        have e := Outcome.exit.inj h
        exact ⟨by rw [← e]; exact a, k, le_trans (advance_valid ha).2.2 hk, hck⟩
      | outOfFuel => rw [hg] at h; simp at h
    | exit c1 =>
      rw [ha] at h
      obtain ⟨a, k, hk, hck⟩ := advance_exit ha
      have e := Outcome.exit.inj h
      exact ⟨by rw [← e]; exact a, k, hk, hck⟩
    | outOfFuel => rw [ha] at h; simp at h

/-- The last PIN of a completed generation of at least one PIN is `randomFor` of the state
the generation ends in. -/
theorem generate_last {clock : Clock} {fuel : Nat} : ∀ {n : Nat} {g g2 : Gen}
    {pins : List Int}, generate clock fuel g (n + 1) = Outcome.done (g2, pins) →
      pins.getLast? = some (randomFor g2.salt g2.pIndex) := by
  intro n
  induction n with
  | zero =>
    intro g g2 pins h
    obtain ⟨g1, p, ps, ha, hg, rfl⟩ := generate_succ_done h
    rw [generate_zero] at hg
    have e := Outcome.done.inj hg
    rw [← (Prod.mk.inj e).1, ← (Prod.mk.inj e).2, (advance_valid ha).2.1]
    rfl
  | succ n ih =>
    intro g g2 pins h
    obtain ⟨g1, p, ps, ha, hg, rfl⟩ := generate_succ_done h
    have hl := ih hg
    cases ps with
    | nil => simp at hl
    | cons q qs =>
      rw [List.getLast?_cons_cons]
      exact hl

/-! ## The file system and `main` -/

theorem openRandomFile_exit {d : Disk} {c : Int} (h : openRandomFile d = Outcome.exit c) :
    c = fileError := by
  unfold openRandomFile at h
  split at h
  · simp at h
  · exact (Outcome.exit.inj h).symm

theorem store_exit {index salt : Int} {d : Disk} {c : Int}
    (h : store index salt d = Outcome.exit c) : c = fileError := by
  unfold store at h
  cases ho : openRandomFile d with
  | done d1 => rw [ho] at h; simp at h
  | exit c1 =>
    rw [ho] at h
    rw [← Outcome.exit.inj h]
    exact openRandomFile_exit ho
  | outOfFuel => rw [ho] at h; simp at h

/-- Loading the state leaves an existing file as it is. -/
theorem load_done_disk {index0 salt0 : Int} {d d1 : Disk} {i s : Int}
    (h : load index0 salt0 d = Outcome.done (d1, i, s)) (hf : fileExists d = true) :
    d1 = d := by
  unfold load openRandomFile at h
  unfold fileExists at hf
  obtain ⟨file, canOpen⟩ := d
  cases file with
  | none => simp at hf
  | some c =>
    cases canOpen with
    | true =>
      simp only [if_true, Option.getD_some] at h
      exact ((Prod.mk.inj (Outcome.done.inj h)).1).symm
    | false => simp at h

/-- A run of `main` that ends with the status `timeError` has printed nothing and has left
the file system as it was. -/
theorem main_timeError (clock : Clock) (fuel : Nat) (count index0 salt0 : Int) (d : Disk)
    (ticks : Nat)
    (h : (main clock fuel count index0 salt0 d ticks).status = Outcome.exit timeError) :
    (main clock fuel count index0 salt0 d ticks).out = [] ∧
      (main clock fuel count index0 salt0 d ticks).disk = d := by
  have hne : fileError ≠ timeError := by decide
  unfold main at h ⊢
  simp only at h ⊢
  by_cases hf : fileExists d = true
  · simp only [hf, if_true] at h ⊢
    cases hl : load index0 salt0 d with
    | done r =>
      obtain ⟨d1, pIndex, salt⟩ := r
      have hd := load_done_disk hl hf
      rw [hl] at h
      simp only at h ⊢
      cases hg : generate clock fuel ⟨pIndex, salt, ticks⟩ count.toNat with
      | done r2 =>
        obtain ⟨g2, pins⟩ := r2
        rw [hg] at h
        simp only at h ⊢
        cases hst : store g2.pIndex g2.salt d1 with
        | done d2 => rw [hst] at h; simp at h
        | exit c =>
          rw [hst] at h
          simp only at h
          exact absurd ((store_exit hst).symm.trans (Outcome.exit.inj h)) hne
        | outOfFuel => rw [hst] at h; simp at h
      | exit c => exact ⟨rfl, hd⟩
      | outOfFuel => rw [hg] at h; simp at h
    | exit c =>
      rw [hl] at h
      exact ⟨rfl, rfl⟩
    | outOfFuel => exact ⟨rfl, rfl⟩
  · simp only [hf, Bool.false_eq_true, if_false] at h ⊢
    cases hg : generate clock fuel ⟨9999, salt0, ticks⟩ count.toNat with
    | done r2 =>
      obtain ⟨g2, pins⟩ := r2
      rw [hg] at h
      simp only at h ⊢
      cases hst : store g2.pIndex g2.salt d with
      | done d2 => rw [hst] at h; simp at h
      | exit c =>
        rw [hst] at h
        simp only at h
        exact absurd ((store_exit hst).symm.trans (Outcome.exit.inj h)) hne
      | outOfFuel => rw [hst] at h; simp at h
    | exit c => exact ⟨rfl, rfl⟩
    | outOfFuel => rw [hg] at h; simp at h

/-- When the generation loop of a run leaves the process, so does the run, with the status
`timeError`. -/
theorem main_of_generate_exit (clock : Clock) (fuel : Nat) (count index0 salt0 : Int)
    (d : Disk) (ticks : Nat) :
    (fileExists d = false → ∀ c,
      generate clock fuel ⟨9999, salt0, ticks⟩ count.toNat = Outcome.exit c →
      main clock fuel count index0 salt0 d ticks = ⟨d, ticks, [], Outcome.exit timeError⟩) ∧
    (fileExists d = true → ∀ d1 i s c, load index0 salt0 d = Outcome.done (d1, i, s) →
      generate clock fuel ⟨i, s, ticks⟩ count.toNat = Outcome.exit c →
      main clock fuel count index0 salt0 d ticks = ⟨d, ticks, [], Outcome.exit timeError⟩) := by
  constructor
  · intro hf c hg
    have hc := (generate_exit hg).1
    unfold main
    simp only [hf, Bool.false_eq_true, if_false, hg, hc]
  · intro hf d1 i s c hl hg
    have hc := (generate_exit hg).1
    have hd := load_done_disk hl hf
    unfold main
    simp only [hf, if_true, hl, hg, hc, hd]

/-- Once an advance of the generation loop leaves the process, the loop does. -/
theorem generate_exit_of_advance {clock : Clock} {fuel : Nat} {g g1 : Gen} {m : Nat}
    {pins : List Int} {c : Int} (hg : generate clock fuel g m = Outcome.done (g1, pins))
    (ha : advance clock fuel g1 = Outcome.exit c) (n : Nat) :
    generate clock fuel g (m + (n + 1)) = Outcome.exit timeError := by
  rw [generate_eq_generateSpec] at hg ⊢
  rw [generateSpec_add, hg]
  simp only
  unfold generateSpec
  rw [ha, (advance_exit ha).1]

/-- The first run without stored state, when the first candidate, the residue of the salt
drawn, is valid. -/
theorem first_run_of_valid_residue (clock : Clock) (fuel : Nat)
    (index0 salt0 s : Int) (t : Nat) (hm : makeSalt (clock t) = Outcome.done s)
    (hs : 0 ≤ s) (hr : ¬ (1111 : Int) ∣ s % 10000) :
    generate clock (fuel + 1) ⟨9999, salt0, t⟩ 1 = Outcome.done (⟨0, s, t + 1⟩, [s % 10000]) ∧
    main clock (fuel + 1) 1 index0 salt0 ⟨none, true⟩ t =
      ⟨⟨some (encodeInt 0 ++ encodeInt s), true⟩, t + 1, [fmt04 (s % 10000)],
        Outcome.done 0⟩ ∧
    (∀ i0 s0 : Int, ∃ d2,
      load i0 s0 ⟨some (encodeInt 0 ++ encodeInt s), true⟩ = Outcome.done (d2, 0, s)) := by
  have hint : isInt32 s := by
    unfold makeSalt at hm
    cases hc : clock t with
    | none => rw [hc] at hm; simp at hm
    | some tv =>
      rw [hc] at hm
      rw [← Outcome.done.inj hm]
      exact isInt32_wrap32 tv
  have hrf : randomFor s 0 = s % 10000 := by
    unfold isInt32 at hint
    have := @randomFor_of_sum s 0 (le_refl _) (by norm_num)
      (by omega) (by omega)
    rw [this]
    congr 1
    omega
  have hv : validPin (s % 10000) = true := by
    rw [validPin_iff]
    omega
  have hn : nextIndex clock ⟨9999, salt0, t⟩ = Outcome.done ⟨0, s, t + 1⟩ := by
    unfold nextIndex
    simp only [if_true, hm]
  have ha : advance clock (fuel + 1) ⟨9999, salt0, t⟩
      = Outcome.done (⟨0, s, t + 1⟩, s % 10000) := by
    unfold advance
    rw [hn]
    simp only [hrf, hv, if_true]
  have hg := generate_succ_of_done ha (generate_zero clock (fuel + 1) ⟨0, s, t + 1⟩)
  have hst : store 0 s ⟨none, true⟩
      = Outcome.done ⟨some (encodeInt 0 ++ encodeInt s), true⟩ := by
    unfold store openRandomFile writeAt intSize
    simp [encodeInt]
  refine ⟨hg, ?_, ?_⟩
  · have h1 : (1 : Int).toNat = 1 := rfl
    unfold main
    simp only [fileExists, Option.isSome_none, Bool.false_eq_true, if_false, h1, hg, hst,
      List.map_cons, List.map_nil]
  · intro i0 s0
    obtain ⟨d1, hst1, d2, hld⟩ :=
      @load_store 0 s (by decide) hint ⟨none, true⟩ rfl i0 s0
    rw [hst] at hst1
    rw [Outcome.done.inj hst1]
    exact ⟨d2, hld⟩


/-! ## The claims -/

/-- C1: whatever the starting state, the count and the clock readings, every PIN that a
completed run of the generation loop of `main` has produced is not a multiple of 1111, so
it is none of 0000, 1111, 2222, ..., 9999; and the loop does complete, for every count,
from every good state under a clock whose readings are good salts. -/
theorem C1_generated_pin_not_multiple_of_1111 (clock : Clock) (fuel : Nat) (g : Gen)
    (count : Nat) :
    (∀ g2 pins, generate clock fuel g count = Outcome.done (g2, pins) →
      ∀ p ∈ pins, ¬ (1111 : Int) ∣ p ∧
        p ∉ [(0 : Int), 1111, 2222, 3333, 4444, 5555, 6666, 7777, 8888, 9999]) ∧
    (goodClock clock → goodGen g →
      ∃ g2 pins, generate clock (fuel + 3) g count = Outcome.done (g2, pins)) := by
  constructor
  · intro g2 pins h p hp
    have hv := (validPin_iff p).mp ((generate_valid h).2.1 p hp)
    refine ⟨by omega, ?_⟩
    simp only [List.mem_cons, List.mem_singleton, List.not_mem_nil, or_false]
    omega
  · intro hc hg
    obtain ⟨g2, pins, h, _⟩ := generate_progress hc fuel count g hg
    exact ⟨g2, pins, h⟩

/-- C1 at the run of three PINs from a fresh state with the clock reading `0`: its second PIN
is `2554`. -/
theorem C1_witness : ¬ (1111 : Int) ∣ 2554 ∧
    (2554 : Int) ∉ [(0 : Int), 1111, 2222, 3333, 4444, 5555, 6666, 7777, 8888, 9999] :=
  (C1_generated_pin_not_multiple_of_1111 (fun _ => some 0) 3 ⟨9999, 77, 0⟩ 3).1 ⟨3, 0, 1⟩
    [6277, 2554, 8831] (by decide) 2554 (by decide)

/-- C2: from a state with its index in the ring, the PINs of one completed `generate`
call are pairwise distinct whenever the salt is not redrawn after the first PIN of the call
(no clock reading after the first run of the `while` loop).  This holds for every `int`
salt and every count; a single epoch has room for at most 9990 PINs. -/
theorem C2_single_epoch_pins_distinct (clock : Clock) (fuel : Nat) (g : Gen) (count : Nat)
    (g2 : Gen) (pins : List Int) (h0 : 0 ≤ g.pIndex) (h1 : g.pIndex ≤ 9999)
    (hs : isInt32 g.salt) (h : generate clock fuel g count = Outcome.done (g2, pins))
    (hepoch : ∀ g1 p1, advance clock fuel g = Outcome.done (g1, p1) → g2.ticks = g1.ticks) :
    pins.Nodup := by
  cases count with
  | zero =>
    rw [generate_zero] at h
    have := Outcome.done.inj h
    rw [← (Prod.mk.inj this).2]
    exact List.nodup_nil
  | succ n =>
    obtain ⟨g1, p, ps, ha, hg, rfl⟩ := generate_succ_done h
    obtain ⟨a0, a1, as1, _⟩ := advance_spec ha h0 h1
    obtain ⟨pv, pe, _⟩ := advance_valid ha
    obtain ⟨_, i2, idxs, hp, hpw, hall⟩ := generate_same_epoch hg a0 a1 (hepoch g1 p ha)
    have hb := (generate_range hg a0 a1).2.1
    have hlist : p :: ps = (g1.pIndex :: idxs).map (randomFor g1.salt) := by
      rw [List.map_cons, ← pe, hp]
    rw [hlist]
    have hnd : (g1.pIndex :: idxs).Nodup := by
      rw [List.nodup_cons]
      refine ⟨fun hmem => ?_, hpw.imp (fun hab => ne_of_lt hab)⟩
      have := (hall _ hmem).1
      omega
    refine List.Nodup.map_on ?_ hnd
    have hmem : ∀ i ∈ g1.pIndex :: idxs,
        0 ≤ i ∧ i ≤ 9999 ∧ validPin (randomFor g1.salt i) = true := by
      intro i hi
      rcases List.mem_cons.mp hi with rfl | hi
      · exact ⟨a0, a1, by rw [← pe]; exact pv⟩
      · obtain ⟨c1, c2, c3⟩ := hall i hi
        exact ⟨by omega, by omega, c3⟩
    intro x hx y hy hxy
    obtain ⟨x0, x1, xv⟩ := hmem x hx
    obtain ⟨y0, y1, yv⟩ := hmem y hy
    exact randomFor_inj_of_valid (as1 hs) x0 x1 y0 y1 xv yv hxy

/-- C2 at the run of three PINs from a fresh state with the clock reading `0`, which draws
its salt once, before the first PIN. -/
theorem C2_witness : ([6277, 2554, 8831] : List Int).Nodup :=
  C2_single_epoch_pins_distinct (fun _ => some 0) 3 ⟨9999, 77, 0⟩ 3 ⟨3, 0, 1⟩
    [6277, 2554, 8831] (by decide) (by decide) (by decide) (by decide)
    (fun g1 p1 ha => by
      have e : Outcome.done ((⟨1, 0, 1⟩ : Gen), (6277 : Int)) = Outcome.done (g1, p1) := ha
      cases e
      rfl)

/-- C3, as amended: for any fixed salt with `0 ≤ salt ≤ 2084719924`, the values
`randomFor salt i` for `i = 0..9999` are pairwise distinct and form exactly the set
`{0, ..., 9999}`. -/
theorem C3_randomFor_bijection_of_goodSalt (salt : Int) (hs : goodSalt salt) :
    (∀ i j : Int, 0 ≤ i → i ≤ 9999 → 0 ≤ j → j ≤ 9999 →
        randomFor salt i = randomFor salt j → i = j) ∧
    (∀ v : Int, (0 ≤ v ∧ v ≤ 9999) ↔ ∃ i : Int, 0 ≤ i ∧ i ≤ 9999 ∧ randomFor salt i = v) := by
  constructor
  · intro i j i0 i1 j0 j1 h
    rw [randomFor_of_good hs i0 i1, randomFor_of_good hs j0 j1] at h
    omega
  · intro v
    constructor
    · rintro ⟨v0, v1⟩
      refine ⟨(v - salt) * 9213 % 10000, by omega, by omega, ?_⟩
      rw [randomFor_of_good hs (by omega) (by omega)]
      omega
    · rintro ⟨i, i0, i1, rfl⟩
      rw [randomFor_of_good hs i0 i1]
      omega

/-- C3, as amended, at the salt `1000`. -/
theorem C3_witness :
    (∀ i j : Int, 0 ≤ i → i ≤ 9999 → 0 ≤ j → j ≤ 9999 →
        randomFor 1000 i = randomFor 1000 j → i = j) ∧
    (∀ v : Int, (0 ≤ v ∧ v ≤ 9999) ↔ ∃ i : Int, 0 ≤ i ∧ i ≤ 9999 ∧ randomFor 1000 i = v) :=
  C3_randomFor_bijection_of_goodSalt 1000 (by decide)

/-- C3 fails as stated: under the salt `-1` the value at index `0` is `-1`, which is
outside `{0, ..., 9999}`. -/
theorem C3_counterexample :
    randomFor (-1) 0 = -1 ∧
    ¬ ((∀ i j : Int, 0 ≤ i → i ≤ 9999 → 0 ≤ j → j ≤ 9999 →
          randomFor (-1) i = randomFor (-1) j → i = j) ∧
       (∀ v : Int, (0 ≤ v ∧ v ≤ 9999) ↔
          ∃ i : Int, 0 ≤ i ∧ i ≤ 9999 ∧ randomFor (-1) i = v)) := by
  refine ⟨by decide, ?_⟩
  rintro ⟨_, h⟩
  have := (h (-1)).mpr ⟨0, le_refl _, by norm_num, by decide⟩
  omega

/-- C4: started at an epoch boundary (index 9999, whatever the stored salt) with the
clock yielding a salt `s` with `0 ≤ s ≤ 2084719924`, the generator emits exactly 9990 PINs
under `s` with that one clock reading, every further PIN needs the next clock reading,
and the 9990 PINs are exactly the non-multiples of 1111 in `[0, 9999]`, each once.  Two
iterations of the `while` loop per PIN are enough. -/
theorem C4_epoch_emits_each_valid_pin_once (clock : Clock) (t : Nat) (salt0 s : Int)
    (fuel : Nat) (hs : goodSalt s) (hc : clock t = some s) :
    ∃ g2 pins, generate clock (fuel + 2) ⟨9999, salt0, t⟩ 9990 = Outcome.done (g2, pins) ∧
      g2.salt = s ∧ g2.ticks = t + 1 ∧ pins.length = 9990 ∧ pins.Nodup ∧
      (∀ p : Int, p ∈ pins ↔ (0 ≤ p ∧ p ≤ 9999 ∧ ¬ (1111 : Int) ∣ p)) ∧
      (∀ fuel2 g3 q, advance clock fuel2 g2 = Outcome.done (g3, q) → t + 2 ≤ g3.ticks) := by
  have hn : nextIndex clock ⟨9999, salt0, t⟩ = Outcome.done ⟨((0 : Nat) : Int), s, t + 1⟩ := by
    unfold nextIndex
    have e : wrap32 s = s := by
      unfold goodSalt at hs
      unfold wrap32
      omega
    simp only [if_true, hc, makeSalt, e, Nat.cast_zero]
  have hlen := length_epochIndices hs
  obtain ⟨j, hgen, hrest, hj⟩ :=
    generate_in_epoch hs fuel (t + 1) 9989 ⟨9999, salt0, t⟩ 0 hn (by rw [hlen])
  rw [List.take_of_length_le (by rw [hlen])] at hgen
  rw [List.drop_of_length_le (by rw [hlen])] at hrest
  have hperm := epoch_pins_perm hs
  refine ⟨_, _, hgen, rfl, rfl, ?_, ?_, ?_, ?_⟩
  · rw [List.length_map, hlen]
  · rw [hperm.nodup_iff]
    refine List.Nodup.map_on ?_ ((List.nodup_range 10000).filter _)
    intro x _ y _ hxy
    omega
  · intro p
    rw [hperm.mem_iff]
    simp only [List.mem_map, validValues, List.mem_filter, List.mem_range, decide_eq_true_eq]
    constructor
    · rintro ⟨v, ⟨hv, hm⟩, rfl⟩
      omega
    · rintro ⟨p0, p1, hm⟩
      exact ⟨p.toNat, ⟨by omega, by omega⟩, by omega⟩
  · intro fuel2 g3 q hadv
    obtain ⟨qv, qe, qt⟩ := advance_valid hadv
    obtain ⟨q0, q1, _, qs⟩ := advance_spec hadv (by simp) (by simp only; omega)
    by_contra hlt
    have hticks : g3.ticks = t + 1 := by
      simp only at qt
      omega
    obtain ⟨es, ei⟩ := qs hticks
    simp only at es ei
    have hmem : g3.pIndex.toNat ∈ epochIndices s (j + 1) := by
      rw [mem_epochIndices, Int.toNat_of_nonneg q0, ← es, ← qe]
      exact ⟨by omega, by omega, qv⟩
    rw [hrest] at hmem
    exact List.not_mem_nil _ hmem

/-- C4 at the clock that reads `1000`, from the index 9999 with `77` in the salt variable. -/
theorem C4_witness :
    ∃ g2 pins, generate (fun _ => some 1000) 2 ⟨9999, 77, 0⟩ 9990 = Outcome.done (g2, pins) ∧
      g2.salt = 1000 ∧ g2.ticks = 0 + 1 ∧ pins.length = 9990 ∧ pins.Nodup ∧
      (∀ p : Int, p ∈ pins ↔ (0 ≤ p ∧ p ≤ 9999 ∧ ¬ (1111 : Int) ∣ p)) ∧
      (∀ fuel2 g3 q, advance (fun _ => some 1000) fuel2 g2 = Outcome.done (g3, q) →
        0 + 2 ≤ g3.ticks) :=
  C4_epoch_emits_each_valid_pin_once (fun _ => some 1000) 0 77 1000 0 (by decide) rfl

/-- C5, as amended: for every salt and every index in `[0, 9999]` for which the sum
`salt + index * 6277` is a non-negative `int` (as it is for every salt in
`[0, 2084719924]`), `randomFor salt index` equals `(salt + index * 6277) mod 10000` and
is a value in `[0, 9999]`. -/
theorem C5_randomFor_formula_and_range (salt index : Int) (hi : 0 ≤ index)
    (hi' : index ≤ 9999) (h0 : 0 ≤ salt + index * 6277)
    (h1 : salt + index * 6277 ≤ 2147483647) :
    randomFor salt index = (salt + index * 6277) % 10000 ∧
      0 ≤ randomFor salt index ∧ randomFor salt index ≤ 9999 := by
  rw [randomFor_of_sum hi hi' h0 h1]
  omega

/-- C5, as amended, at the salt `1000` and the index `3`. -/
theorem C5_witness :
    randomFor 1000 3 = (1000 + 3 * 6277) % 10000 ∧
      0 ≤ randomFor 1000 3 ∧ randomFor 1000 3 ≤ 9999 :=
  C5_randomFor_formula_and_range 1000 3 (by decide) (by decide) (by decide) (by decide)

/-- C5 fails as stated: for the salt `-6278` and the index `1` the code returns `-1`, which
is neither the mathematical residue `9999` nor a value in `[0, 9999]`. -/
theorem C5_counterexample :
    randomFor (-6278) 1 = -1 ∧
    ¬ (randomFor (-6278) 1 = (-6278 + 1 * 6277) % 10000 ∧
        0 ≤ randomFor (-6278) 1 ∧ randomFor (-6278) 1 ≤ 9999) := by
  decide

/-- C6: for every pin in `[0, 9999]`, `validPin pin` is false exactly when pin is one of
0, 1111, 2222, 3333, 4444, 5555, 6666, 7777, 8888, 9999. -/
theorem C6_validPin_exclusion_set (pin : Int) (h0 : 0 ≤ pin) (h1 : pin ≤ 9999) :
    validPin pin = false ↔
      pin ∈ [(0 : Int), 1111, 2222, 3333, 4444, 5555, 6666, 7777, 8888, 9999] := by
  rw [← Bool.not_eq_true, validPin_iff]
  simp only [List.mem_cons, List.mem_singleton, List.not_mem_nil, or_false]
  omega

/-- C6 at the pin `3333`. -/
theorem C6_witness :
    validPin 3333 = false ↔
      (3333 : Int) ∈ [(0 : Int), 1111, 2222, 3333, 4444, 5555, 6666, 7777, 8888, 9999] :=
  C6_validPin_exclusion_set 3333 (by decide) (by decide)

/-- C7: whatever the starting state and the stored or drawn salts (negative ones
included), every PIN that a completed run of the generation loop has stored in `pins[]`
is an integer in `[0, 9999]`, and `%04d` prints it as exactly four decimal digits; so every
line a run of `main` prints is four decimal digits. -/
theorem C7_stored_pin_prints_as_four_digits (clock : Clock) (fuel : Nat) (g : Gen)
    (count : Nat) (argCount index0 salt0 : Int) (d : Disk) :
    (∀ g2 pins, generate clock fuel g count = Outcome.done (g2, pins) →
      ∀ p ∈ pins, 0 ≤ p ∧ p ≤ 9999 ∧ (fmt04 p).length = 4 ∧
        ∀ c ∈ fmt04 p, c.isDigit = true) ∧
    (∀ line ∈ (main clock fuel argCount index0 salt0 d g.ticks).out,
      line.length = 4 ∧ ∀ c ∈ line, c.isDigit = true) := by
  have key : ∀ (g : Gen) (count : Nat) (g2 : Gen) (pins : List Int),
      generate clock fuel g count = Outcome.done (g2, pins) →
      ∀ p ∈ pins, 0 ≤ p ∧ p ≤ 9999 ∧ (fmt04 p).length = 4 ∧
        ∀ c ∈ fmt04 p, c.isDigit = true := by
    intro g count g2 pins h p hp
    have hv := (validPin_iff p).mp ((generate_valid h).2.1 p hp)
    have hb := generate_pins_bounds h p hp
    have h0 : 0 ≤ p := by omega
    exact ⟨h0, hb.2, fmt04_of_range h0 hb.2⟩
  refine ⟨key g count, ?_⟩
  intro line hline
  rcases main_out clock fuel argCount index0 salt0 d g.ticks with he | ⟨g0, g2, pins, hgen, he⟩
  · rw [he] at hline
    exact absurd hline (List.not_mem_nil _)
  · rw [he, List.mem_map] at hline
    obtain ⟨p, hp, rfl⟩ := hline
    exact (key _ _ _ _ hgen p hp).2.2

/-- C7 at the run of two PINs from a fresh state with the clock reading `-1`, a negative
salt: its second PIN is `2553`. -/
theorem C7_witness :
    (0 : Int) ≤ 2553 ∧ (2553 : Int) ≤ 9999 ∧ (fmt04 2553).length = 4 ∧
      ∀ c ∈ fmt04 2553, c.isDigit = true :=
  (C7_stored_pin_prints_as_four_digits (fun _ => some (-1)) 3 ⟨9999, 77, 0⟩ 2 2 5 7
    ⟨none, true⟩).1 ⟨2, -1, 1⟩ [6276, 2553] (by decide) 2553 (by decide)

/-- C8: for every count, `generate` is the `count`-fold succession of `advance` with the
state threaded through and the PINs collected in order (`generateSpec`); when it completes
it returns exactly `count` PINs; under a clock whose readings are good salts it does
complete from every good state, three iterations of the `while` loop per PIN being
enough; and from a fresh state (index 9999, any salt variable) with the clock reading `0`
and count 3 it returns `[6277, 2554, 8831]` and the final state (index 3, salt 0). -/
theorem C8_generate_returns_count_pins_in_order (clock : Clock) (fuel : Nat) (g : Gen)
    (count : Nat) (salt0 : Int) (t : Nat) :
    generate clock fuel g count = generateSpec clock fuel g count ∧
    (∀ g2 pins, generate clock fuel g count = Outcome.done (g2, pins) → pins.length = count) ∧
    (goodClock clock → goodGen g →
      ∃ g2 pins, generate clock (fuel + 3) g count = Outcome.done (g2, pins) ∧
        pins.length = count) ∧
    generate (fun _ => some 0) (fuel + 2) ⟨9999, salt0, t⟩ 3
      = Outcome.done (⟨3, 0, t + 1⟩, [6277, 2554, 8831]) := by
  refine ⟨generate_eq_generateSpec clock fuel count g, ?_, ?_, ?_⟩
  · intro g2 pins h
    exact (generate_valid h).1
  · intro hc hg
    obtain ⟨g2, pins, h, _⟩ := generate_progress hc fuel count g hg
    exact ⟨g2, pins, h, (generate_valid h).1⟩
  · rfl

/-- C9: for all `m` and `n` and every starting state, generating `m` PINs, saving the
state with `store`, loading it again with `load` and generating `n` PINs from the loaded
state, the clock readings being consumed in the same order, gives the same PINs in the
same order and the same final state as generating `m + n` PINs at once; the two also
fail alike.  The file must be one that `open` can open. -/
theorem C9_generate_resumes_from_saved_state (clock : Clock) (fuel : Nat) (g : Gen)
    (m n : Nat) (d : Disk) (index0 salt0 : Int) (hi : isInt32 g.pIndex)
    (hs : isInt32 g.salt) (hd : d.canOpen = true) :
    generateTwice clock fuel g m n d index0 salt0 = generate clock fuel g (m + n) := by
  unfold generateTwice
  rw [generate_eq_generateSpec clock fuel (m + n), generateSpec_add]
  cases h1 : generate clock fuel g m with
  | done r =>
    obtain ⟨g1, pins1⟩ := r
    obtain ⟨i1, s1⟩ := generate_isInt32 h1 hi hs
    obtain ⟨d1, hst, d2, hld⟩ := load_store i1 s1 hd index0 salt0
    rw [generate_eq_generateSpec] at h1
    rw [h1]
    simp only [hst, hld]
    rw [generate_eq_generateSpec]
  | exit c =>
    rw [generate_eq_generateSpec] at h1
    rw [h1]
  | outOfFuel =>
    rw [generate_eq_generateSpec] at h1
    rw [h1]

/-- C9 at one PIN, then two, from a fresh state with the clock reading `0` and no file. -/
theorem C9_witness :
    generateTwice (fun _ => some 0) 3 ⟨9999, 77, 0⟩ 1 2 ⟨none, true⟩ 5 7
      = generate (fun _ => some 0) 3 ⟨9999, 77, 0⟩ (1 + 2) :=
  C9_generate_resumes_from_saved_state (fun _ => some 0) 3 ⟨9999, 77, 0⟩ 1 2 ⟨none, true⟩ 5 7
    (by decide) (by decide) rfl

/-- C10: if the index is in `[0, 9999]` (as is the index 9999 a run without stored state
starts from), it is in `[0, 9999]` after an execution of the body of the `while` loop,
hence after the loop, and hence in the state the generation loop ends in, which is the
state `main` stores. -/
theorem C10_index_stays_in_ring (clock : Clock) (fuel : Nat) (g : Gen) (h0 : 0 ≤ g.pIndex)
    (h1 : g.pIndex ≤ 9999) :
    (∀ g1, nextIndex clock g = Outcome.done g1 → 0 ≤ g1.pIndex ∧ g1.pIndex ≤ 9999) ∧
    (∀ g2 p, advance clock fuel g = Outcome.done (g2, p) → 0 ≤ g2.pIndex ∧ g2.pIndex ≤ 9999) ∧
    (∀ count g2 pins, generate clock fuel g count = Outcome.done (g2, pins) →
      0 ≤ g2.pIndex ∧ g2.pIndex ≤ 9999) := by
  refine ⟨?_, ?_, ?_⟩
  · intro g1 h
    obtain ⟨a, b, _⟩ := nextIndex_spec h h0 h1
    exact ⟨a, b⟩
  · intro g2 p h
    obtain ⟨a, b, _⟩ := advance_spec h h0 h1
    exact ⟨a, b⟩
  · intro count g2 pins h
    obtain ⟨a, b, _⟩ := generate_range h h0 h1
    exact ⟨a, b⟩

/-- C10 at the state a run without stored state starts from. -/
theorem C10_witness :
    (∀ g1, nextIndex (fun _ => some 0) ⟨9999, 77, 0⟩ = Outcome.done g1 →
      0 ≤ g1.pIndex ∧ g1.pIndex ≤ 9999) ∧
    (∀ g2 p, advance (fun _ => some 0) 3 ⟨9999, 77, 0⟩ = Outcome.done (g2, p) →
      0 ≤ g2.pIndex ∧ g2.pIndex ≤ 9999) ∧
    (∀ count g2 pins, generate (fun _ => some 0) 3 ⟨9999, 77, 0⟩ count = Outcome.done (g2, pins) →
      0 ≤ g2.pIndex ∧ g2.pIndex ≤ 9999) :=
  C10_index_stays_in_ring (fun _ => some 0) 3 ⟨9999, 77, 0⟩ (by decide) (by decide)

/-- C11: for all stored salts `s1` and `s2` and the same clock, one advance from the state
(9999, `s1`) and one from (9999, `s2`) have the same outcome, the same PIN and the same new
state when they complete: the first step reads the clock, takes the reading as the new salt
and puts the index to 0, whatever the stored salt; a completed advance has read the clock;
and under a clock of good salts the advance does complete. -/
theorem C11_rollover_ignores_stored_salt (clock : Clock) (fuel : Nat) (s1 s2 : Int)
    (t : Nat) :
    advance clock fuel ⟨9999, s1, t⟩ = advance clock fuel ⟨9999, s2, t⟩ ∧
    nextIndex clock ⟨9999, s1, t⟩ =
      (match clock t with
        | some tv => Outcome.done ⟨0, wrap32 tv, t + 1⟩
        | none => Outcome.exit timeError) ∧
    (∀ g2 p, advance clock fuel ⟨9999, s1, t⟩ = Outcome.done (g2, p) → t + 1 ≤ g2.ticks) ∧
    (goodClock clock →
      ∃ g2 p, advance clock (fuel + 2) ⟨9999, s1, t⟩ = Outcome.done (g2, p)) := by
  have hn : ∀ s : Int, nextIndex clock ⟨9999, s, t⟩ =
      (match clock t with
        | some tv => Outcome.done ⟨0, wrap32 tv, t + 1⟩
        | none => Outcome.exit timeError) := by
    intro s
    unfold nextIndex makeSalt
    cases clock t <;> simp
  refine ⟨?_, hn s1, ?_, ?_⟩
  · cases fuel with
    | zero => rfl
    | succ n =>
      unfold advance
      rw [hn s1, hn s2]
  · intro g2 p h
    cases fuel with
    | zero => simp [advance] at h
    | succ n =>
      obtain ⟨g1, h1, hcase⟩ := advance_succ_done h
      have ht : g1.ticks = t + 1 := by
        rw [hn s1] at h1
        cases hc : clock t with
        | none => rw [hc] at h1; simp at h1
        | some tv =>
          rw [hc] at h1
          simp only at h1
          rw [← Outcome.done.inj h1]
      rcases hcase with ⟨_, rfl, _⟩ | ⟨_, hrec⟩
      · exact le_of_eq ht.symm
      · have := (advance_valid hrec).2.2
        omega
  · intro hc
    obtain ⟨g2, p, h, _⟩ := advance_progress_boundary hc
      (g := ⟨9999, s1, t⟩) rfl fuel
    exact ⟨g2, p, h⟩

/-- C13: under a salt `s` with `0 ≤ s ≤ 2084719924`, when the loop body has reached an
index `j < 9999` under `s` whose candidate `randomFor s j` is a multiple of 1111, the
advance emits nothing for `j` and emits `randomFor s (j + 1)`, leaving the index at
`j + 1`; from a fresh state with the clock reading `0` it skips index 0 (PIN 0) and emits
`6277` with final index 1. -/
theorem C13_excluded_candidate_is_skipped (clock : Clock) (fuel : Nat) (g : Gen)
    (j s : Int) (t : Nat) (salt0 : Int) (t0 : Nat) (hs : goodSalt s) (hj0 : 0 ≤ j)
    (hj : j < 9999) (hreach : nextIndex clock g = Outcome.done ⟨j, s, t⟩)
    (hex : (1111 : Int) ∣ randomFor s j) :
    advance clock (fuel + 2) g = Outcome.done (⟨j + 1, s, t⟩, randomFor s (j + 1)) ∧
    validPin (randomFor s j) = false ∧ validPin (randomFor s (j + 1)) = true ∧
    advance (fun _ => some 0) (fuel + 2) ⟨9999, salt0, t0⟩
      = Outcome.done (⟨1, 0, t0 + 1⟩, 6277) := by
  have hv : validPin (randomFor s j) = false := by
    rw [← Bool.not_eq_true, validPin_iff]
    omega
  have hv1 := valid_succ_of_invalid hs hj0 (by omega) hv
  have hn1 : nextIndex clock ⟨j, s, t⟩ = Outcome.done ⟨j + 1, s, t⟩ := by
    unfold nextIndex
    have h9 : ¬ (j = 9999) := by omega
    have e : wrap32 (j + 1) = j + 1 := by
      unfold wrap32
      omega
    simp only [h9, if_false, e]
  refine ⟨?_, hv, hv1, rfl⟩
  unfold advance
  rw [hreach]
  simp only [hv, Bool.false_eq_true, if_false]
  unfold advance
  rw [hn1]
  simp only [hv1, if_true]

/-- C13 at a fresh state with the clock reading `0`: index 0 gives the excluded PIN 0, and
the advance emits `6277` at index 1. -/
theorem C13_witness :
    advance (fun _ => some 0) (0 + 2) ⟨9999, 77, 0⟩
      = Outcome.done (⟨0 + 1, 0, 1⟩, randomFor 0 (0 + 1)) ∧
    validPin (randomFor 0 0) = false ∧ validPin (randomFor 0 (0 + 1)) = true ∧
    advance (fun _ => some 0) (0 + 2) ⟨9999, 77, 0⟩ = Outcome.done (⟨1, 0, 0 + 1⟩, 6277) :=
  C13_excluded_candidate_is_skipped (fun _ => some 0) 0 ⟨9999, 77, 0⟩ 0 0 1 77 0
    (by decide) (by decide) (by decide) rfl (by decide)

/-- C14, as amended: an advance emits the PIN computed at index 9999 whenever that
candidate is valid, since the index reaches 9999 by increment from 9998 and its candidate
is examined like any other; the generator re-salts only in the next iteration of the loop
body, which finds the index at 9999; so within an epoch PINs are emitted from indices
0..9999. -/
theorem C14_index_9999_emits_valid_candidate (clock : Clock) (fuel : Nat) (s : Int)
    (t : Nat) (hv : validPin (randomFor s 9999) = true) :
    advance clock (fuel + 1) ⟨9998, s, t⟩ = Outcome.done (⟨9999, s, t⟩, randomFor s 9999) ∧
    (∀ f g2 p, advance clock f ⟨9999, s, t⟩ = Outcome.done (g2, p) → t + 1 ≤ g2.ticks) ∧
    (∀ f g g2 p, 0 ≤ g.pIndex → g.pIndex ≤ 9999 →
      advance clock f g = Outcome.done (g2, p) →
        0 ≤ g2.pIndex ∧ g2.pIndex ≤ 9999 ∧ p = randomFor g2.salt g2.pIndex) := by
  refine ⟨?_, ?_, ?_⟩
  · have hn : nextIndex clock ⟨9998, s, t⟩ = Outcome.done ⟨9999, s, t⟩ := by
      unfold nextIndex
      simp [wrap32]
    unfold advance
    rw [hn]
    simp only [hv, if_true]
  · intro f g2 p h
    obtain ⟨_, _, _, hsame⟩ := advance_spec h (by simp) (by simp)
    have hmono := (advance_valid h).2.2
    by_contra hlt
    have hticks : g2.ticks = t := by
      simp only at hmono
      omega
    have := (hsame hticks).2
    have hle := (advance_spec h (by simp) (by simp)).2.1
    simp only at this
    omega
  · intro f g g2 p h0 h1 h
    obtain ⟨a, b, _⟩ := advance_spec h h0 h1
    exact ⟨a, b, (advance_valid h).2.1⟩

/-- C14, as amended, at the state saved after the PIN of index 9998 under the salt
`1300000000`. -/
theorem C14_witness :
    advance (fun _ => some 1400000000) (0 + 1) ⟨9998, 1300000000, 0⟩
        = Outcome.done (⟨9999, 1300000000, 0⟩, randomFor 1300000000 9999) ∧
    (∀ f g2 p, advance (fun _ => some 1400000000) f ⟨9999, 1300000000, 0⟩
        = Outcome.done (g2, p) → 0 + 1 ≤ g2.ticks) ∧
    (∀ f g g2 p, 0 ≤ g.pIndex → g.pIndex ≤ 9999 →
      advance (fun _ => some 1400000000) f g = Outcome.done (g2, p) →
        0 ≤ g2.pIndex ∧ g2.pIndex ≤ 9999 ∧ p = randomFor g2.salt g2.pIndex) :=
  C14_index_9999_emits_valid_candidate (fun _ => some 1400000000) 0 1300000000 0 (by decide)

/-- C14 fails as stated: from the state (9998, 1300000000) the advance moves the index to
9999 and emits the PIN computed there, `3723`, without reading the clock. -/
theorem C14_counterexample :
    advance (fun _ => some 1400000000) 1 ⟨9998, 1300000000, 0⟩
      = Outcome.done (⟨9999, 1300000000, 0⟩, 3723) ∧
    randomFor 1300000000 9999 = 3723 := by
  decide

/-- C19: for every index in `[0, 9999]` and every salt with `0 ≤ salt ≤ 2084719924`, the
product `index * 6277` and the sum `salt + index * 6277` of `randomFor` are values of a
32-bit `int`, so `randomFor` returns the mathematical residue of the sum modulo 10000; the
bound is tight, since for the salt `2084719925` and the index `9999` the sum is `2^31` and
`randomFor` returns `-3648` instead of `3648`. -/
theorem C19_randomFor_sum_does_not_overflow (salt index : Int) (hs : goodSalt salt)
    (h0 : 0 ≤ index) (h1 : index ≤ 9999) :
    isInt32 (index * prime) ∧ isInt32 (salt + index * prime) ∧
    randomFor salt index = (salt + index * 6277) % 10000 ∧
    (2084719925 + 9999 * prime = 2147483648 ∧ ¬ isInt32 (2084719925 + 9999 * prime)) ∧
    (randomFor 2084719925 9999 = -3648 ∧ (2084719925 + 9999 * 6277 : Int) % 10000 = 3648) := by
  refine ⟨?_, ?_, randomFor_of_good hs h0 h1, by decide, by decide⟩
  · unfold goodSalt at hs
    unfold isInt32 prime
    omega
  · unfold goodSalt at hs
    unfold isInt32 prime
    omega

/-- C19 at the largest good salt and the last index, where the sum is `2^31 - 1`. -/
theorem C19_witness :
    isInt32 (9999 * prime) ∧ isInt32 (2084719924 + 9999 * prime) ∧
    randomFor 2084719924 9999 = (2084719924 + 9999 * 6277) % 10000 ∧
    (2084719925 + 9999 * prime = 2147483648 ∧ ¬ isInt32 (2084719925 + 9999 * prime)) ∧
    (randomFor 2084719925 9999 = -3648 ∧ (2084719925 + 9999 * 6277 : Int) % 10000 = 3648) :=
  C19_randomFor_sum_does_not_overflow 2084719924 9999 (by decide) (by decide) (by decide)

/-- C12: from an epoch boundary without stored state (index 9999, no file) with the
clock yielding a salt `s ≥ 0` whose residue `s mod 10000` is not a multiple of 1111, a run
with count 1 emits `s mod 10000`, ends the generation in the state (index 0, salt `s`) and
saves that state, so that a later `load` reads (0, `s`); with the clock reading `1000` the
run prints `1000` and saves (0, 1000). -/
theorem C12_first_run_emits_salt_residue (clock : Clock) (fuel : Nat)
    (index0 salt0 s : Int) (t : Nat) (hm : makeSalt (clock t) = Outcome.done s)
    (hs : 0 ≤ s) (hr : ¬ (1111 : Int) ∣ s % 10000) :
    generate clock (fuel + 1) ⟨9999, salt0, t⟩ 1 = Outcome.done (⟨0, s, t + 1⟩, [s % 10000]) ∧
    main clock (fuel + 1) 1 index0 salt0 ⟨none, true⟩ t =
      ⟨⟨some (encodeInt 0 ++ encodeInt s), true⟩, t + 1, [fmt04 (s % 10000)],
        Outcome.done 0⟩ ∧
    (∀ i0 s0 : Int, ∃ d2,
      load i0 s0 ⟨some (encodeInt 0 ++ encodeInt s), true⟩ = Outcome.done (d2, 0, s)) ∧
    main (fun _ => some 1000) (fuel + 1) 1 index0 salt0 ⟨none, true⟩ t =
      ⟨⟨some [0, 0, 0, 0, 232, 3, 0, 0], true⟩, t + 1, [['1', '0', '0', '0']],
        Outcome.done 0⟩ := by
  obtain ⟨a, b, c⟩ := first_run_of_valid_residue clock fuel index0 salt0 s t hm hs hr
  obtain ⟨_, b1, _⟩ := first_run_of_valid_residue (fun _ => some 1000) fuel index0 salt0
    1000 t rfl (by decide) (by decide)
  have e1 : encodeInt 0 ++ encodeInt 1000 = [0, 0, 0, 0, 232, 3, 0, 0] := by decide
  have e2 : fmt04 (1000 % 10000) = ['1', '0', '0', '0'] := by decide
  rw [e1, e2] at b1
  exact ⟨a, b, c, b1⟩

/-- C12 at the clock that reads `1000`. -/
theorem C12_witness :
    generate (fun _ => some 1000) (0 + 1) ⟨9999, 77, 0⟩ 1
      = Outcome.done (⟨0, 1000, 0 + 1⟩, [1000 % 10000]) ∧
    main (fun _ => some 1000) (0 + 1) 1 5 77 ⟨none, true⟩ 0 =
      ⟨⟨some (encodeInt 0 ++ encodeInt 1000), true⟩, 0 + 1, [fmt04 (1000 % 10000)],
        Outcome.done 0⟩ ∧
    (∀ i0 s0 : Int, ∃ d2,
      load i0 s0 ⟨some (encodeInt 0 ++ encodeInt 1000), true⟩ = Outcome.done (d2, 0, 1000)) ∧
    main (fun _ => some 1000) (0 + 1) 1 5 77 ⟨none, true⟩ 0 =
      ⟨⟨some [0, 0, 0, 0, 232, 3, 0, 0], true⟩, 0 + 1, [['1', '0', '0', '0']],
        Outcome.done 0⟩ :=
  C12_first_run_emits_salt_residue (fun _ => some 1000) 0 5 77 1000 0 rfl (by decide)
    (by decide)

/-- C15: after every completed `generate` with count at least 1 from a state with its
index in `[0, 9999]`, the state it ends in, which is the state saved, is the position of
the last emitted PIN: `randomFor salt index` is the last PIN of the output and the index
is in `[0, 9999]`; and what `store` writes of that state, `load` reads back. -/
theorem C15_saved_state_is_position_of_last_pin (clock : Clock) (fuel : Nat) (g : Gen)
    (n : Nat) (g2 : Gen) (pins : List Int) (h0 : 0 ≤ g.pIndex) (h1 : g.pIndex ≤ 9999)
    (h : generate clock fuel g (n + 1) = Outcome.done (g2, pins)) :
    pins.getLast? = some (randomFor g2.salt g2.pIndex) ∧
    0 ≤ g2.pIndex ∧ g2.pIndex ≤ 9999 ∧
    (isInt32 g.salt → ∀ (d : Disk) (i0 s0 : Int), d.canOpen = true →
      ∃ d1 d2, store g2.pIndex g2.salt d = Outcome.done d1 ∧
        load i0 s0 d1 = Outcome.done (d2, g2.pIndex, g2.salt)) := by
  obtain ⟨a, b, _⟩ := generate_range h h0 h1
  refine ⟨generate_last h, a, b, ?_⟩
  intro hs d i0 s0 hd
  have hi : isInt32 g.pIndex := by
    unfold isInt32
    omega
  obtain ⟨i2, s2⟩ := generate_isInt32 h hi hs
  obtain ⟨d1, hst, d2, hld⟩ := load_store i2 s2 hd i0 s0
  exact ⟨d1, d2, hst, hld⟩

/-- C15 at the run of three PINs from a fresh state with the clock reading `0`. -/
theorem C15_witness :
    ([6277, 2554, 8831] : List Int).getLast? = some (randomFor 0 3) ∧
    (0 : Int) ≤ 3 ∧ (3 : Int) ≤ 9999 ∧
    (isInt32 77 → ∀ (d : Disk) (i0 s0 : Int), d.canOpen = true →
      ∃ d1 d2, store 3 0 d = Outcome.done d1 ∧ load i0 s0 d1 = Outcome.done (d2, 3, 0)) :=
  C15_saved_state_is_position_of_last_pin (fun _ => some 0) 3 ⟨9999, 77, 0⟩ 2 ⟨3, 0, 1⟩
    [6277, 2554, 8831] (by decide) (by decide) (by decide)

/-- C16: a clock reading that fails makes the loop body leave the process with the status
`timeError`, which is 2, different from the status 1 of a file failure and from 0; the
generation loop leaves the process in no other way, and it does as soon as one of its
advances does; the run then ends with the status 2, has printed no PIN and has left the
file system, hence the persisted state, exactly as it was, also when the PINs before the
failing advance had been generated. -/
theorem C16_clock_failure_ends_run_with_status_2 (clock : Clock) (fuel : Nat)
    (count index0 salt0 : Int) (d : Disk) (ticks : Nat) :
    (∀ g : Gen, g.pIndex = 9999 → clock g.ticks = none →
      nextIndex clock g = Outcome.exit timeError) ∧
    (∀ (g : Gen) (n : Nat) (c : Int), generate clock fuel g n = Outcome.exit c →
      c = timeError ∧ ∃ k, g.ticks ≤ k ∧ clock k = none) ∧
    (∀ (g g1 : Gen) (m n : Nat) (pins : List Int) (c : Int),
      generate clock fuel g m = Outcome.done (g1, pins) →
      advance clock fuel g1 = Outcome.exit c →
      generate clock fuel g (m + (n + 1)) = Outcome.exit timeError) ∧
    (fileExists d = false → ∀ c,
      generate clock fuel ⟨9999, salt0, ticks⟩ count.toNat = Outcome.exit c →
      main clock fuel count index0 salt0 d ticks = ⟨d, ticks, [], Outcome.exit timeError⟩) ∧
    (fileExists d = true → ∀ d1 i s c, load index0 salt0 d = Outcome.done (d1, i, s) →
      generate clock fuel ⟨i, s, ticks⟩ count.toNat = Outcome.exit c →
      main clock fuel count index0 salt0 d ticks = ⟨d, ticks, [], Outcome.exit timeError⟩) ∧
    ((main clock fuel count index0 salt0 d ticks).status = Outcome.exit timeError →
      (main clock fuel count index0 salt0 d ticks).out = [] ∧
      (main clock fuel count index0 salt0 d ticks).disk = d) ∧
    (timeError = 2 ∧ timeError ≠ fileError ∧ timeError ≠ 0) ∧
    (main (fun _ => none) 3 3 5 7 ⟨some (encodeInt 9997 ++ encodeInt 1300000000), true⟩ 0
        = ⟨⟨some (encodeInt 9997 ++ encodeInt 1300000000), true⟩, 0, [], Outcome.exit 2⟩ ∧
      (main (fun _ => none) 3 2 5 7 ⟨some (encodeInt 9997 ++ encodeInt 1300000000), true⟩ 0).out
        = [['7', '4', '4', '6'], ['3', '7', '2', '3']]) := by
  refine ⟨?_, ?_, ?_, ?_, ?_, main_timeError clock fuel count index0 salt0 d ticks,
    by decide, by decide⟩
  · intro g h9 hc
    exact nextIndex_exit.mpr ⟨h9, hc, rfl⟩
  · intro g n c h
    exact generate_exit h
  · intro g g1 m n pins c hg ha
    exact generate_exit_of_advance hg ha n
  · exact (main_of_generate_exit clock fuel count index0 salt0 d ticks).1
  · exact (main_of_generate_exit clock fuel count index0 salt0 d ticks).2

/-- C17: for every index in `[0, 9999]` and every `int` salt, `load` performed after
`store index salt` returns exactly (index, salt), whatever the state file contained before
the store (also when it did not exist) and whatever the variables held before the load.
The file must be one that `open` can open. -/
theorem C17_load_after_store_round_trip (index salt : Int) (d : Disk) (index0 salt0 : Int)
    (h0 : 0 ≤ index) (h1 : index ≤ 9999) (hs : isInt32 salt) (hd : d.canOpen = true) :
    ∃ d1 d2, store index salt d = Outcome.done d1 ∧
      load index0 salt0 d1 = Outcome.done (d2, index, salt) := by
  have hi : isInt32 index := by
    unfold isInt32
    omega
  obtain ⟨d1, hst, d2, hld⟩ := load_store hi hs hd index0 salt0
  exact ⟨d1, d2, hst, hld⟩

/-- C17 at the state (3, -2) and a file that held ten other bytes. -/
theorem C17_witness :
    ∃ d1 d2, store 3 (-2) ⟨some [9, 9, 9, 9, 9, 9, 9, 9, 9, 9], true⟩ = Outcome.done d1 ∧
      load 5 7 d1 = Outcome.done (d2, 3, -2) :=
  C17_load_after_store_round_trip 3 (-2) ⟨some [9, 9, 9, 9, 9, 9, 9, 9, 9, 9], true⟩ 5 7
    (by decide) (by decide) (by decide) rfl

/-- C18: from every state with its index in `[0, 9999]`, when the stored salt and the
salts the clock yields are in `[0, 2084719924]`, the skip loop of one advance ends after at
most 3 executions of its body, with the same result for any larger bound, because under
one good salt no two consecutive indices both give a multiple of 1111; three are needed
from the state (9998, 6277) when the clock reads `0`. -/
theorem C18_skip_loop_ends_within_three (clock : Clock) (g : Gen) (hc : goodClock clock)
    (h0 : 0 ≤ g.pIndex) (h1 : g.pIndex ≤ 9999) (hs : goodSalt g.salt) :
    (∃ g2 p, ∀ fuel, advance clock (3 + fuel) g = Outcome.done (g2, p)) ∧
    (∀ s i : Int, goodSalt s → 0 ≤ i → i + 1 ≤ 9999 →
      ¬ ((1111 : Int) ∣ randomFor s i ∧ (1111 : Int) ∣ randomFor s (i + 1))) ∧
    (advance (fun _ => some 0) 2 ⟨9998, 6277, 0⟩ = Outcome.outOfFuel ∧
      advance (fun _ => some 0) 3 ⟨9998, 6277, 0⟩ = Outcome.done (⟨1, 0, 1⟩, 6277)) := by
  refine ⟨?_, ?_, by decide⟩
  · obtain ⟨g2, p, h, _⟩ := advance_progress hc (g := g) ⟨h0, h1, Or.inr hs⟩ 0
    rw [Nat.zero_add] at h
    exact ⟨g2, p, fun fuel => advance_mono h fuel⟩
  · intro s i hgs i0 i1
    rw [randomFor_of_good hgs i0 (by omega), randomFor_of_good hgs (by omega) i1]
    omega

/-- C18 at the state (9998, 6277) with the clock reading `0`, where index 9999 and then
index 0 under the new salt both give the excluded PIN 0. -/
theorem C18_witness :
    (∃ g2 p, ∀ fuel, advance (fun _ => some 0) (3 + fuel) ⟨9998, 6277, 0⟩
      = Outcome.done (g2, p)) ∧
    (∀ s i : Int, goodSalt s → 0 ≤ i → i + 1 ≤ 9999 →
      ¬ ((1111 : Int) ∣ randomFor s i ∧ (1111 : Int) ∣ randomFor s (i + 1))) ∧
    (advance (fun _ => some 0) 2 ⟨9998, 6277, 0⟩ = Outcome.outOfFuel ∧
      advance (fun _ => some 0) 3 ⟨9998, 6277, 0⟩ = Outcome.done (⟨1, 0, 1⟩, 6277)) :=
  C18_skip_loop_ends_within_three (fun _ => some 0) ⟨9998, 6277, 0⟩
    (fun _ => ⟨0, rfl, by decide⟩) (by decide) (by decide) (by decide)

end Pins
